import Mathlib

/-!
Verification of the transcript-alignment core of the Russian-transcription
repository: the normalizer (`stripPunctuation` + lowercasing), the Levenshtein
`editDistance` with its rolling two-row computation, the `isFuzzyMatch`
threshold, the two two-pointer aligners (`alignWhisperToOriginal` in
text-utils, and the per-batch walk of `addPunctuation` in tts.js), and the
gap-interpolation pass.

Strings are embedded as `List Char` (JavaScript string indexing is per UTF-16
code unit; every character occurring in this code base is a single code unit).
Timestamps are embedded as rationals `ℚ`: the JavaScript numbers are binary
floats, and the arithmetic identities proved below are about the ideal
(exact) arithmetic the spec describes.
-/

namespace RusTr

/-- Whitespace, as matched by the regex class `\s` on the character sets this
repository processes (ASCII whitespace; the exotic Unicode spaces also in `\s`
do not occur in its data). -/
def isSpaceChar (c : Char) : Bool :=
  c = ' ' || c = '\t' || c = '\n' || c = '\r'

/-- The character class of `stripPunctuation`
(src/unnamed/part_009, text-utils): `. , ! ? ; : — – - « » " ' ( ) …` and `\s`. -/
def isPunctChar (c : Char) : Bool :=
  c = '.' || c = ',' || c = '!' || c = '?' || c = ';' || c = ':' ||
  c = '—' || c = '–' || c = '-' || c = '«' || c = '»' || c = '"' ||
  c = '\'' || c = '(' || c = ')' || c = '…' || isSpaceChar c

/-- `stripPunctuation(word)`: strip the leading run and the trailing run of
punctuation/whitespace characters (the regex `^[..]+|[..]+$` with a global
replace by the empty string). -/
def stripPunctuation (w : List Char) : List Char :=
  ((w.dropWhile isPunctChar).reverse.dropWhile isPunctChar).reverse

/-- JavaScript `toLowerCase`, restricted to the alphabets this repository
works with: ASCII Latin and Russian Cyrillic (`А`–`Я` and `Ё`). -/
def charToLower (c : Char) : Char :=
  if 'A' ≤ c && c ≤ 'Z' then Char.ofNat (c.toNat + 32)
  else if 'А' ≤ c && c ≤ 'Я' then Char.ofNat (c.toNat + 32)
  else if c = 'Ё' then 'ё'
  else c

/-- The normalized comparison key used throughout both aligners:
`stripPunctuation(w).toLowerCase()`. -/
def normBase (w : List Char) : List Char :=
  (stripPunctuation w).map charToLower

/-- The inner `for j` loop of `editDistance`: given the row `prev` (tail
starting at column `j-1`), the current character `y = b[i-1]`, and
`curr[j-1] = cj1`, produce the entries `curr[j]`, `curr[j+1]`, ... for the
remaining characters of `a`. -/
def levRowGo (y : Char) : List Char → List Nat → Nat → List Nat
  | [], _, _ => []
  | x :: xs, prev, cj1 =>
    match prev with
    | [] => []
    | pj1 :: rest =>
      let pj := rest.headD 0
      let cost : Nat := if x = y then 0 else 1
      let cj := min (pj + 1) (min (cj1 + 1) (pj1 + cost))
      cj :: levRowGo y xs rest cj

/-- The outer `for i` loop of `editDistance` over the characters of `b`,
carrying the previous row and the row index `i` (`curr[0] = i`). -/
def levRows (a : List Char) : List Char → List Nat → Nat → List Nat
  | [], prev, _ => prev
  | y :: ys, prev, i => levRows a ys (i :: levRowGo y a prev i) (i + 1)

/-- `editDistance(a, b)` from text-utils: Levenshtein distance via two rolling
rows, after swapping so the first argument is the shorter string. -/
def editDistance (a b : List Char) : Nat :=
  if a.length = 0 then b.length
  else if b.length = 0 then a.length
  else
    let p := if a.length > b.length then (b, a) else (a, b)
    (levRows p.1 p.2 (List.range (p.1.length + 1)) 1).getD p.1.length 0

/-- `isFuzzyMatch(a, b)` from text-utils.  `Math.floor(maxLen * 0.3)` equals
`3 * maxLen / 10` in natural division (exact for the real constant `0.3`, and
for the binary double `0.3` on every realistic word length). -/
def isFuzzyMatch (a b : List Char) : Bool :=
  if a.length < 4 || b.length < 4 then false
  else decide (editDistance a b ≤ max 2 (3 * max a.length b.length / 10))

/-- The classic Levenshtein distance: the naive recursive reference
definition the spec describes. -/
def levDist : List Char → List Char → Nat
  | [], b => b.length
  | a, [] => a.length
  | x :: a, y :: b =>
    if x = y then levDist a b
    else 1 + min (levDist a (y :: b)) (min (levDist (x :: a) b) (levDist a b))
termination_by a b => a.length + b.length

/-- An edit script from `a` to `b` of total cost `n`: copies are free;
substitutions, insertions and deletions cost 1. -/
inductive EditSeq : List Char → List Char → Nat → Prop
  | nil : EditSeq [] [] 0
  | copy (x : Char) {a b : List Char} {n : Nat} :
      EditSeq a b n → EditSeq (x :: a) (x :: b) n
  | subst (x y : Char) {a b : List Char} {n : Nat} :
      EditSeq a b n → EditSeq (x :: a) (y :: b) (n + 1)
  | ins (y : Char) {a b : List Char} {n : Nat} :
      EditSeq a b n → EditSeq a (y :: b) (n + 1)
  | del (x : Char) {a b : List Char} {n : Nat} :
      EditSeq a b n → EditSeq (x :: a) b (n + 1)

/-- A Whisper word as used by both aligners: text plus trusted timing
(`{word, start, end}`; `end` is a reserved word in Lean, hence `endT`). -/
structure WWord where
  word : List Char
  start : ℚ
  endT : ℚ
deriving Repr, DecidableEq, Inhabited

/-- An output token of `alignWhisperToOriginal` (`{word, start, end}`). -/
structure AToken where
  word : List Char
  start : ℚ
  endT : ℚ
deriving Repr, DecidableEq, Inhabited

/-- The match test both walks use against a fixed normalized `base`:
`cand === base || isFuzzyMatch(cand, base)`. -/
def laHit (cand base : List Char) : Bool :=
  decide (cand = base) || isFuzzyMatch cand base

/-- The bounded-lookahead scan shared by both walks: the smallest
`la ∈ {1,2,3}` with `idx + la < len` whose candidate's normalized form hits
`base` (the `for (let la = 1; la <= 3 && idx + la < len; la++)` loops). -/
def findLookahead (get : Nat → List Char) (len : Nat) (base : List Char)
    (idx : Nat) : Option Nat :=
  if decide (idx + 1 < len) && laHit (normBase (get (idx + 1))) base then some 1
  else if decide (idx + 2 < len) && laHit (normBase (get (idx + 2))) base then some 2
  else if decide (idx + 3 < len) && laHit (normBase (get (idx + 3))) base then some 3
  else none

/-- The leading space `(i > 0 ? ' ' : '')` attached to every output word of
`alignWhisperToOriginal` except the first. -/
def leadSpace (i : Nat) : List Char := if 0 < i then [' '] else []

/-- The emissions and pointer advances of one iteration of the main
while-loop of `alignWhisperToOriginal`, at original index `oi` and whisper
index `wi`. -/
structure AlignStep where
  toks : List AToken
  oi : Nat
  wi : Nat

/-- One iteration of the `alignWhisperToOriginal` walk: direct match, whisper
lookahead, original lookahead (emitting sentinel-timed skipped originals), or
the unmatched/exhausted fallbacks. -/
def alignStep (ws : List WWord) (os : List (List Char)) (oi wi : Nat) :
    AlignStep :=
  let origWord := os.getD oi []
  let origBase := normBase origWord
  if wi < ws.length then
    let w := ws.getD wi default
    let whisperBase := normBase w.word
    if laHit origBase whisperBase then
      ⟨[⟨leadSpace oi ++ origWord, w.start, w.endT⟩], oi + 1, wi + 1⟩
    else
      match findLookahead (fun k => (ws.getD k default).word) ws.length origBase wi with
      | some la =>
        let w2 := ws.getD (wi + la) default
        ⟨[⟨leadSpace oi ++ origWord, w2.start, w2.endT⟩], oi + 1, wi + la + 1⟩
      | none =>
        match findLookahead (fun k => os.getD k []) os.length whisperBase oi with
        | some la =>
          ⟨(List.range la).map (fun skip =>
              ⟨leadSpace (oi + skip) ++ os.getD (oi + skip) [], -1, -1⟩),
            oi + la, wi⟩
        | none => ⟨[⟨leadSpace oi ++ origWord, -1, -1⟩], oi + 1, wi⟩
  else ⟨[⟨leadSpace oi ++ origWord, -1, -1⟩], oi + 1, wi⟩

/-- The main while-loop of `alignWhisperToOriginal`, indexed by the fuel
`os.length - oi` (`alignStep_oi_lt` shows one unit of fuel per iteration
suffices; `alignWalk_eq` below recovers the loop-shaped unfolding). -/
def alignWalkGo (ws : List WWord) (os : List (List Char)) :
    Nat → Nat → Nat → List AToken
  | 0, _, _ => []
  | fuel + 1, oi, wi =>
    if oi < os.length then
      let s := alignStep ws os oi wi
      s.toks ++ alignWalkGo ws os fuel s.oi s.wi
    else []

/-- The main while-loop of `alignWhisperToOriginal`: iterate `alignStep`,
concatenating emissions, until the original index exhausts. -/
def alignWalk (ws : List WWord) (os : List (List Char)) (oi wi : Nat) :
    List AToken :=
  alignWalkGo ws os (os.length - oi) oi wi

/-- The backward scan of the interpolation pass: end of the nearest preceding
token whose `end` is not the sentinel `-1` (the prefix is walked in reverse);
`0` when there is none. -/
def backScanGo : List AToken → ℚ
  | [] => 0
  | t :: ts => if t.endT ≠ -1 then t.endT else backScanGo ts

def backScan (r : List AToken) (i : Nat) : ℚ :=
  backScanGo (r.take i).reverse

/-- The forward scan of the interpolation pass: from index `i+1`, count the
consecutive sentinel-start tokens (`gapCount` starts at 1 for the token at `i`
itself) and return the next real `start`, or `total` when none follows. -/
def fwdScanGo (total : ℚ) : List AToken → Nat → ℚ × Nat
  | [], g => (total, g)
  | t :: ts, g => if t.start ≠ -1 then (t.start, g) else fwdScanGo total ts (g + 1)

def fwdScan (total : ℚ) (r : List AToken) (i : Nat) : ℚ × Nat :=
  fwdScanGo total (r.drop (i + 1)) 1

/-- The inner fill loop of one interpolation firing: walk the whole list with
its index `j`, reassigning the tokens of the run `i ≤ j < i + g` position
`p = j - i + 1`. -/
def interpFill (prevEnd step : ℚ) (i g : Nat) : List AToken → Nat → List AToken
  | [], _ => []
  | t :: ts, j =>
    (if i ≤ j ∧ j < i + g then
      { t with start := prevEnd + step * ((j - i + 1 : ℕ) : ℚ),
               endT := prevEnd + step * (((j - i + 1 : ℕ) : ℚ) + 4/5) }
    else t) :: interpFill prevEnd step i g ts (j + 1)

/-- One firing of the interpolation loop at index `i` (whose token has
sentinel start): distribute the gap between `prevEnd` and `nextStart` evenly,
assigning the `p`-th token of the run `start = prevEnd + step·p` and
`end = prevEnd + step·(p + 0.8)`. -/
def interpOne (total : ℚ) (r : List AToken) (i : Nat) : List AToken :=
  let prevEnd := backScan r i
  let sc := fwdScan total r i
  let step := (sc.1 - prevEnd) / (sc.2 + 1)
  interpFill prevEnd step i sc.2 r 0

/-- The driver of the interpolation pass: visit every index in order, firing
`interpOne` on those whose (current) token has a sentinel start. -/
def interpGo (total : ℚ) : List AToken → List Nat → List AToken
  | r, [] => r
  | r, i :: is =>
    interpGo total (if (r.getD i default).start = -1 then interpOne total r i else r) is

/-- The terminal interpolation pass of `alignWhisperToOriginal`
(the `for (let i ...)` loop over `result`). -/
def interpolate (total : ℚ) (r : List AToken) : List AToken :=
  interpGo total r (List.range r.length)

/-- The empty-input fallback of `alignWhisperToOriginal`: one zero-timed
token per original word. -/
def zeroTokGo : List (List Char) → Nat → List AToken
  | [], _ => []
  | w :: rest, i => ⟨leadSpace i ++ w, 0, 0⟩ :: zeroTokGo rest (i + 1)

/-- `alignWhisperToOriginal(whisperWords, originalWords)` from text-utils
(src/unnamed/part_009): empty-input fallback, two-pointer walk, then
interpolation bounded by the last whisper word's end time. -/
def alignWhisperToOriginal (ws : List WWord) (os : List (List Char)) :
    List AToken :=
  if ws.length = 0 ∨ os.length = 0 then zeroTokGo os 0
  else interpolate (ws.getLastD default).endT (alignWalk ws os 0 0)

/-- A token with trustworthy (nonnegative, ordered) timing. -/
def realT (t : AToken) : Prop := 0 ≤ t.start ∧ t.start ≤ t.endT

/-- The Boolean sentinel-start test the interpolation scans use. -/
def sentStart (t : AToken) : Bool := decide (t.start = -1)

/-- Chronological well-formedness of an aligner output relative to a running
lower bound `prevEnd` and the overall duration `total`: every token is either
a full sentinel or real; real tokens start no earlier than `prevEnd` and chain
through their end times; the final bound stays below `total`. -/
def GapOk (total : ℚ) : ℚ → List AToken → Prop
  | prevEnd, [] => prevEnd ≤ total
  | prevEnd, t :: ts =>
    (t.start = -1 ∧ t.endT = -1 ∧ GapOk total prevEnd ts) ∨
    (realT t ∧ prevEnd ≤ t.start ∧ GapOk total t.endT ts)

/-- Chronological well-formedness of the whisper input: every word has
`0 ≤ start ≤ end`, and consecutive words do not overlap. -/
def WsOk (ws : List WWord) : Prop :=
  (∀ w ∈ ws, 0 ≤ w.start ∧ w.start ≤ w.endT) ∧
  (∀ k, k + 1 < ws.length →
    (ws.getD k default).endT ≤ (ws.getD (k + 1) default).start)

/-- Reference form of the fill loop: assign run positions `p, p+1, ...` the
interpolated `start = prevEnd + step·p`, `end = prevEnd + step·(p + 0.8)`. -/
def fillRunGo (prevEnd step : ℚ) : List AToken → Nat → List AToken
  | [], _ => []
  | t :: ts, p =>
    { t with start := prevEnd + step * (p : ℚ),
             endT := prevEnd + step * ((p : ℚ) + 4/5) } ::
      fillRunGo prevEnd step ts (p + 1)

/-- The `nextStart` bound of a gap: the start of the first following real
token, or the overall duration when none follows. -/
def nextStartOf (total : ℚ) : List AToken → ℚ
  | [] => total
  | u :: _ => u.start

/-- The end of the last processed token (`0` when none): the `prevEnd` each
gap is bounded by on the left. -/
def lastEnd : List AToken → ℚ
  | [] => 0
  | l => (l.getLastD default).endT

/-- Reference description of the whole interpolation pass: walk the list,
keep real tokens (updating `prevEnd`), and fill each maximal sentinel run
from its bounding anchors. -/
def fillAll (total : ℚ) (prevEnd : ℚ) (r : List AToken) : List AToken :=
  match r with
  | [] => []
  | t :: ts =>
    if t.start = -1 then
      fillRunGo prevEnd
        ((nextStartOf total (ts.dropWhile sentStart) - prevEnd) /
          (((t :: ts.takeWhile sentStart).length : ℚ) + 1))
        (t :: ts.takeWhile sentStart) 1 ++
        fillAll total prevEnd (ts.dropWhile sentStart)
    else t :: fillAll total t.endT ts
termination_by r.length
decreasing_by
  · have := (List.dropWhile_suffix (l := ts) sentStart).length_le
    simp
    omega
  · simp

/-- The emissions, pointer advances and match count of one iteration of the
per-batch two-pointer walk inside `addPunctuation` (src/server/media/tts.js,
lines 276–340). -/
structure PunctStep where
  toks : List WWord
  oi : Nat
  pi : Nat
  matchedInc : Nat

/-- One iteration of the `addPunctuation` walk: direct/fuzzy match (replace
text, keep timing), lookahead over the corrected tokens (LLM inserted extras),
lookahead over the originals (LLM merged words; the skipped originals are kept
verbatim), or keep the original verbatim. -/
def punctStep (batchWords : List WWord) (punct : List (List Char))
    (oi pi : Nat) : PunctStep :=
  let original := batchWords.getD oi default
  let lead := original.word.takeWhile isSpaceChar
  let origBase := normBase original.word
  if pi < punct.length then
    let punctBase := normBase (punct.getD pi [])
    if laHit origBase punctBase then
      ⟨[{ original with word := lead ++ punct.getD pi [] }], oi + 1, pi + 1, 1⟩
    else
      match findLookahead (fun k => punct.getD k []) punct.length origBase pi with
      | some la =>
        ⟨[{ original with word := lead ++ punct.getD (pi + la) [] }],
          oi + 1, pi + la + 1, 1⟩
      | none =>
        match findLookahead (fun k => (batchWords.getD k default).word)
            batchWords.length punctBase oi with
        | some la =>
          ⟨(List.range la).map (fun skip => batchWords.getD (oi + skip) default),
            oi + la, pi, 0⟩
        | none => ⟨[original], oi + 1, pi, 0⟩
  else ⟨[original], oi + 1, pi, 0⟩

/-- The per-batch while-loop of `addPunctuation`, indexed by the fuel
`batchWords.length - oi` (`punctStep_oi_lt` shows one unit of fuel per
iteration suffices; `punctWalk_eq` below recovers the loop-shaped
unfolding). -/
def punctWalkGo (batchWords : List WWord) (punct : List (List Char)) :
    Nat → Nat → Nat → List WWord × Nat
  | 0, _, _ => ([], 0)
  | fuel + 1, oi, pi =>
    if oi < batchWords.length then
      let s := punctStep batchWords punct oi pi
      let rest := punctWalkGo batchWords punct fuel s.oi s.pi
      (s.toks ++ rest.1, s.matchedInc + rest.2)
    else ([], 0)

/-- The per-batch while-loop of `addPunctuation`: iterate `punctStep`, pairing
the emitted tokens with the running `matched` count. -/
def punctWalk (batchWords : List WWord) (punct : List (List Char))
    (oi pi : Nat) : List WWord × Nat :=
  punctWalkGo batchWords punct (batchWords.length - oi) oi pi

/-- The outcome of one source token under the `addPunctuation` walk: either it
is kept verbatim, or its text is replaced (leading whitespace preserved) by a
corrected token whose normalized form matches its own exactly or fuzzily. -/
def punctOutcome (punct : List (List Char)) (orig out : WWord) : Prop :=
  out = orig ∨
  (out.start = orig.start ∧ out.endT = orig.endT ∧
    ∃ j, j < punct.length ∧
      out.word = orig.word.takeWhile isSpaceChar ++ punct.getD j [] ∧
      (normBase orig.word = normBase (punct.getD j []) ∨
        isFuzzyMatch (normBase orig.word) (normBase (punct.getD j [])) = true ∨
        isFuzzyMatch (normBase (punct.getD j [])) (normBase orig.word) = true))

theorem levDist_nil_left (b : List Char) : levDist [] b = b.length := by
  cases b <;> simp [levDist]

theorem levDist_nil_right (a : List Char) : levDist a [] = a.length := by
  cases a <;> simp [levDist]

theorem levDist_cons_cons (x y : Char) (a b : List Char) :
    levDist (x :: a) (y :: b) =
      if x = y then levDist a b
      else 1 + min (levDist a (y :: b)) (min (levDist (x :: a) b) (levDist a b)) := by
  simp [levDist]

/-- Adding or removing one leading character changes `levDist` by at most 1,
on either side. -/
theorem levDist_adj : ∀ (a b : List Char),
    (∀ y, levDist a (y :: b) ≤ levDist a b + 1) ∧
    (∀ x, levDist (x :: a) b ≤ levDist a b + 1) ∧
    (∀ y, levDist a b ≤ levDist a (y :: b) + 1) ∧
    (∀ x, levDist a b ≤ levDist (x :: a) b + 1) := by
  have H : ∀ n (a b : List Char), a.length + b.length ≤ n →
      (∀ y, levDist a (y :: b) ≤ levDist a b + 1) ∧
      (∀ x, levDist (x :: a) b ≤ levDist a b + 1) ∧
      (∀ y, levDist a b ≤ levDist a (y :: b) + 1) ∧
      (∀ x, levDist a b ≤ levDist (x :: a) b + 1) := by
    intro n
    induction n with
    | zero =>
      intro a b h
      have ha : a = [] := List.length_eq_zero.mp (by omega)
      have hb : b = [] := List.length_eq_zero.mp (by omega)
      subst ha; subst hb
      refine ⟨?_, ?_, ?_, ?_⟩ <;> intro z <;>
        simp [levDist_nil_left, levDist_nil_right]
    | succ n ih =>
      intro a b h
      refine ⟨?_, ?_, ?_, ?_⟩
      · -- I1 : levDist a (y :: b) ≤ levDist a b + 1
        intro y
        cases a with
        | nil => simp [levDist_nil_left]
        | cons x a' =>
          by_cases hxy : x = y
          · rw [levDist_cons_cons, if_pos hxy]
            have hsz : a'.length + b.length ≤ n := by
              simp at h; omega
            exact (ih a' b hsz).2.2.2 x
          · rw [levDist_cons_cons, if_neg hxy]
            have hm := le_trans (Nat.min_le_right (levDist a' (y :: b))
              (min (levDist (x :: a') b) (levDist a' b)))
              (Nat.min_le_left (levDist (x :: a') b) (levDist a' b))
            omega
      · -- D1 : levDist (x :: a) b ≤ levDist a b + 1
        intro x
        cases b with
        | nil => simp [levDist_nil_right]
        | cons y b' =>
          by_cases hxy : x = y
          · rw [levDist_cons_cons, if_pos hxy]
            have hsz : a.length + b'.length ≤ n := by
              simp at h; omega
            exact (ih a b' hsz).2.2.1 y
          · rw [levDist_cons_cons, if_neg hxy]
            have hm := Nat.min_le_left (levDist a (y :: b'))
              (min (levDist (x :: a) b') (levDist a b'))
            omega
      · -- I2 : levDist a b ≤ levDist a (y :: b) + 1
        intro y
        cases a with
        | nil => simp [levDist_nil_left]; omega
        | cons x a' =>
          by_cases hxy : x = y
          · rw [levDist_cons_cons, if_pos hxy]
            have hsz : a'.length + b.length ≤ n := by
              simp at h; omega
            exact (ih a' b hsz).2.1 x
          · rw [levDist_cons_cons, if_neg hxy]
            have hsz : a'.length + b.length ≤ n := by
              simp at h; omega
            have h1 : levDist (x :: a') b ≤ levDist a' b + 1 :=
              (ih a' b hsz).2.1 x
            have h2 : levDist a' b ≤ levDist a' (y :: b) + 1 :=
              (ih a' b hsz).2.2.1 y
            omega
      · -- D2 : levDist a b ≤ levDist (x :: a) b + 1
        intro x
        cases b with
        | nil => simp [levDist_nil_right]; omega
        | cons y b' =>
          by_cases hxy : x = y
          · rw [levDist_cons_cons, if_pos hxy]
            have hsz : a.length + b'.length ≤ n := by
              simp at h; omega
            exact (ih a b' hsz).1 y
          · rw [levDist_cons_cons, if_neg hxy]
            have hsz : a.length + b'.length ≤ n := by
              simp at h; omega
            have h1 : levDist a (y :: b') ≤ levDist a b' + 1 :=
              (ih a b' hsz).1 y
            have h2 : levDist a b' ≤ levDist (x :: a) b' + 1 :=
              (ih a b' hsz).2.2.2 x
            omega
  exact fun a b => H (a.length + b.length) a b le_rfl

/-- `levDist` is a lower bound on the cost of any edit script. -/
theorem levDist_le_of_editSeq {a b : List Char} {n : Nat}
    (h : EditSeq a b n) : levDist a b ≤ n := by
  induction h with
  | nil => simp [levDist_nil_left]
  | copy x h ih =>
    rw [levDist_cons_cons, if_pos rfl]
    exact ih
  | subst x y h ih =>
    rename_i a' b' n'
    by_cases hxy : x = y
    · rw [levDist_cons_cons, if_pos hxy]; omega
    · rw [levDist_cons_cons, if_neg hxy]
      have h3 : min (levDist a' (y :: b'))
          (min (levDist (x :: a') b') (levDist a' b')) ≤ levDist a' b' :=
        le_trans (Nat.min_le_right _ _) (Nat.min_le_right _ _)
      omega
  | ins y h ih =>
    rename_i a' b' n'
    have := (levDist_adj a' b').1 y
    omega
  | del x h ih =>
    rename_i a' b' n'
    have := (levDist_adj a' b').2.1 x
    omega

theorem editSeq_nil_left : ∀ b : List Char, EditSeq [] b b.length := by
  intro b
  induction b with
  | nil => exact EditSeq.nil
  | cons y b ih => exact EditSeq.ins y ih

theorem editSeq_nil_right : ∀ a : List Char, EditSeq a [] a.length := by
  intro a
  induction a with
  | nil => exact EditSeq.nil
  | cons x a ih => exact EditSeq.del x ih

/-- `levDist` is achieved by an edit script. -/
theorem editSeq_levDist : ∀ a b : List Char, EditSeq a b (levDist a b) := by
  have H : ∀ n (a b : List Char), a.length + b.length ≤ n →
      EditSeq a b (levDist a b) := by
    intro n
    induction n with
    | zero =>
      intro a b h
      have ha : a = [] := List.length_eq_zero.mp (by omega)
      have hb : b = [] := List.length_eq_zero.mp (by omega)
      subst ha; subst hb
      simpa [levDist_nil_left] using EditSeq.nil
    | succ n ih =>
      intro a b h
      cases a with
      | nil => rw [levDist_nil_left]; exact editSeq_nil_left b
      | cons x a' =>
        cases b with
        | nil => rw [levDist_nil_right]; exact editSeq_nil_right (x :: a')
        | cons y b' =>
          simp only [List.length_cons] at h
          by_cases hxy : x = y
          · rw [levDist_cons_cons, if_pos hxy]
            subst hxy
            exact EditSeq.copy x (ih a' b' (by omega))
          · rw [levDist_cons_cons, if_neg hxy]
            set u := levDist a' (y :: b') with hu
            set v := levDist (x :: a') b' with hv
            set w := levDist a' b' with hw
            have hm : min u (min v w) = u ∨ min u (min v w) = v ∨
                min u (min v w) = w := by omega
            rcases hm with hm | hm | hm <;> rw [hm]
            · have := EditSeq.del x (ih a' (y :: b') (by simp; omega))
              rw [← hu] at this
              simpa [Nat.add_comm] using this
            · have := EditSeq.ins y (ih (x :: a') b' (by simp; omega))
              rw [← hv] at this
              simpa [Nat.add_comm] using this
            · have := EditSeq.subst x y (ih a' b' (by omega))
              rw [← hw] at this
              simpa [Nat.add_comm] using this
  exact fun a b => H (a.length + b.length) a b le_rfl

theorem editSeq_swap {a b : List Char} {n : Nat} (h : EditSeq a b n) :
    EditSeq b a n := by
  induction h with
  | nil => exact EditSeq.nil
  | copy x h ih => exact EditSeq.copy x ih
  | subst x y h ih => exact EditSeq.subst y x ih
  | ins y h ih => exact EditSeq.del y ih
  | del x h ih => exact EditSeq.ins x ih

theorem editSeq_snoc_copy (z : Char) {a b : List Char} {n : Nat}
    (h : EditSeq a b n) : EditSeq (a ++ [z]) (b ++ [z]) n := by
  induction h with
  | nil => exact EditSeq.copy z EditSeq.nil
  | copy x h ih => exact EditSeq.copy x ih
  | subst x y h ih => exact EditSeq.subst x y ih
  | ins y h ih => exact EditSeq.ins y ih
  | del x h ih => exact EditSeq.del x ih

theorem editSeq_snoc_subst (z w : Char) {a b : List Char} {n : Nat}
    (h : EditSeq a b n) : EditSeq (a ++ [z]) (b ++ [w]) (n + 1) := by
  induction h with
  | nil => exact EditSeq.subst z w EditSeq.nil
  | copy x h ih => exact EditSeq.copy x ih
  | subst x y h ih => exact EditSeq.subst x y ih
  | ins y h ih => exact EditSeq.ins y ih
  | del x h ih => exact EditSeq.del x ih

theorem editSeq_snoc_ins (w : Char) {a b : List Char} {n : Nat}
    (h : EditSeq a b n) : EditSeq a (b ++ [w]) (n + 1) := by
  induction h with
  | nil => exact EditSeq.ins w EditSeq.nil
  | copy x h ih => exact EditSeq.copy x ih
  | subst x y h ih => exact EditSeq.subst x y ih
  | ins y h ih => exact EditSeq.ins y ih
  | del x h ih => exact EditSeq.del x ih

theorem editSeq_snoc_del (z : Char) {a b : List Char} {n : Nat}
    (h : EditSeq a b n) : EditSeq (a ++ [z]) b (n + 1) := by
  induction h with
  | nil => exact EditSeq.del z EditSeq.nil
  | copy x h ih => exact EditSeq.copy x ih
  | subst x y h ih => exact EditSeq.subst x y ih
  | ins y h ih => exact EditSeq.ins y ih
  | del x h ih => exact EditSeq.del x ih

theorem editSeq_reverse {a b : List Char} {n : Nat} (h : EditSeq a b n) :
    EditSeq a.reverse b.reverse n := by
  induction h with
  | nil => exact EditSeq.nil
  | copy x h ih => simpa [List.reverse_cons] using editSeq_snoc_copy x ih
  | subst x y h ih => simpa [List.reverse_cons] using editSeq_snoc_subst x y ih
  | ins y h ih => simpa [List.reverse_cons] using editSeq_snoc_ins y ih
  | del x h ih => simpa [List.reverse_cons] using editSeq_snoc_del x ih

/-- The classic Levenshtein distance is symmetric. -/
theorem levDist_comm (a b : List Char) : levDist a b = levDist b a :=
  le_antisymm
    (levDist_le_of_editSeq (editSeq_swap (editSeq_levDist b a)))
    (levDist_le_of_editSeq (editSeq_swap (editSeq_levDist a b)))

/-- The classic Levenshtein distance is invariant under reversing both
strings. -/
theorem levDist_reverse (a b : List Char) :
    levDist a.reverse b.reverse = levDist a b := by
  apply le_antisymm
  · exact levDist_le_of_editSeq (editSeq_reverse (editSeq_levDist a b))
  · have := levDist_le_of_editSeq (editSeq_reverse (editSeq_levDist a.reverse b.reverse))
    simpa using this

theorem take_reverse_succ (l : List Char) (j : Nat) (h : j < l.length) :
    (l.take (j + 1)).reverse = l.getD j default :: (l.take j).reverse := by
  rw [List.take_succ, List.getElem?_eq_getElem h]
  simp [List.getD_eq_getElem?_getD, List.getElem?_eq_getElem h]

/-- The dynamic-programming cell recurrence, phrased for the reversed-prefix
distances the rolling rows of `editDistance` compute. -/
theorem levDist_cell (a b : List Char) (j i : Nat) (hj : j < a.length)
    (hi : i < b.length) :
    levDist ((a.take (j + 1)).reverse) ((b.take (i + 1)).reverse) =
      min (levDist ((a.take (j + 1)).reverse) ((b.take i).reverse) + 1)
        (min (levDist ((a.take j).reverse) ((b.take (i + 1)).reverse) + 1)
          (levDist ((a.take j).reverse) ((b.take i).reverse) +
            if a.getD j default = b.getD i default then 0 else 1)) := by
  rw [take_reverse_succ a j hj, take_reverse_succ b i hi]
  set x := a.getD j default with hx
  set y := b.getD i default with hy
  set A := (a.take j).reverse with hA
  set B := (b.take i).reverse with hB
  rw [levDist_cons_cons]
  by_cases hxy : x = y
  · rw [if_pos hxy, if_pos hxy]
    have h1 := (levDist_adj A B).2.2.2 x
    have h2 := (levDist_adj A B).2.2.1 y
    omega
  · rw [if_neg hxy, if_neg hxy]
    omega

theorem levD_congr (a b : List Char) (m m' i i' : Nat) (hm : m = m')
    (hi : i = i') :
    levDist ((a.take m).reverse) ((b.take i).reverse) =
      levDist ((a.take m').reverse) ((b.take i').reverse) := by
  rw [hm, hi]

theorem levRowGo_cons (y x : Char) (xs : List Char) (pj1 : Nat)
    (rest : List Nat) (cj1 : Nat) :
    levRowGo y (x :: xs) (pj1 :: rest) cj1 =
      min (rest.headD 0 + 1) (min (cj1 + 1) (pj1 + if x = y then 0 else 1)) ::
        levRowGo y xs rest
          (min (rest.headD 0 + 1)
            (min (cj1 + 1) (pj1 + if x = y then 0 else 1))) := rfl

theorem getD_range (n t : Nat) (h : t < n) : (List.range n).getD t 0 = t := by
  rw [List.getD_eq_getElem?_getD, List.getElem?_range h]
  rfl

/-- Inner-loop invariant of `editDistance`: if `prev` holds the reversed-prefix
distances of row `i` from column `pre.length` on, then `levRowGo` computes the
row-`i+1` entries for the remaining columns. -/
theorem levRowGo_spec (a b : List Char) (i : Nat) (hi : i < b.length) :
    ∀ (xs pre : List Char), a = pre ++ xs →
    ∀ (prev : List Nat), prev.length = xs.length + 1 →
      (∀ t, t < xs.length + 1 → prev.getD t 0 =
        levDist ((a.take (pre.length + t)).reverse) ((b.take i).reverse)) →
    ∀ cj1, cj1 = levDist ((a.take pre.length).reverse)
        ((b.take (i + 1)).reverse) →
      (levRowGo (b.getD i default) xs prev cj1).length = xs.length ∧
      ∀ t, t < xs.length →
        (levRowGo (b.getD i default) xs prev cj1).getD t 0 =
          levDist ((a.take (pre.length + t + 1)).reverse)
            ((b.take (i + 1)).reverse) := by
  intro xs
  induction xs with
  | nil =>
    intro pre ha prev hlen hprev cj1 hc
    exact ⟨rfl, fun t ht => absurd ht (by simp)⟩
  | cons x' xs' ih =>
    intro pre ha prev hlen hprev cj1 hc
    have hx' : a.getD pre.length default = x' := by
      rw [ha, List.getD_append_right _ _ _ _ (le_refl pre.length)]
      simp
    have hj : pre.length < a.length := by
      rw [ha]; simp
    cases prev with
    | nil => simp at hlen
    | cons p0 rest =>
      have hp0 : p0 = levDist ((a.take pre.length).reverse)
          ((b.take i).reverse) := by
        have := hprev 0 (by omega)
        simpa using this
      have hrestlen : rest.length = xs'.length + 1 := by
        simpa using hlen
      have hrest : ∀ t, t < xs'.length + 1 → rest.getD t 0 =
          levDist ((a.take (pre.length + 1 + t)).reverse)
            ((b.take i).reverse) := by
        intro t ht
        have := hprev (t + 1) (by simpa using Nat.add_lt_add_right ht 1)
        rw [List.getD_cons_succ] at this
        rw [this]
        exact levD_congr a b _ _ _ _ (by omega) rfl
      have hheadD : rest.headD 0 = levDist ((a.take (pre.length + 1)).reverse)
          ((b.take i).reverse) := by
        cases rest with
        | nil => simp at hrestlen
        | cons r0 rs =>
          have := hrest 0 (by omega)
          simpa using this
      rw [levRowGo_cons]
      have hcell := levDist_cell a b pre.length i hj hi
      rw [hx'] at hcell
      have hcj : min (rest.headD 0 + 1)
          (min (cj1 + 1) (p0 + if x' = b.getD i default then 0 else 1)) =
          levDist ((a.take (pre.length + 1)).reverse)
            ((b.take (i + 1)).reverse) := by
        rw [hheadD, hc, hp0]
        omega
      rw [hcj]
      have hpre' : a = (pre ++ [x']) ++ xs' := by simp [ha]
      have hrest' : ∀ t, t < xs'.length + 1 → rest.getD t 0 =
          levDist ((a.take ((pre ++ [x']).length + t)).reverse)
            ((b.take i).reverse) := by
        intro t ht
        rw [hrest t ht]
        exact levD_congr a b _ _ _ _ (by simp) rfl
      have hcj' : levDist ((a.take (pre.length + 1)).reverse)
          ((b.take (i + 1)).reverse) =
          levDist ((a.take ((pre ++ [x']).length)).reverse)
            ((b.take (i + 1)).reverse) :=
        levD_congr a b _ _ _ _ (by simp) rfl
      obtain ⟨ihlen, ihget⟩ := ih (pre ++ [x']) hpre' rest hrestlen hrest' _ hcj'
      constructor
      · simp only [List.length_cons, ihlen]
      · intro t ht
        simp only [List.length_cons] at ht
        cases t with
        | zero =>
          simp only [List.getD_cons_zero]
          all_goals exact levD_congr a b _ _ _ _ (by omega) rfl
        | succ t =>
          simp only [List.getD_cons_succ]
          rw [ihget t (by omega)]
          exact levD_congr a b _ _ _ _
            (by simp only [List.length_append, List.length_singleton]; omega) rfl

/-- Outer-loop invariant of `editDistance`: starting from the row for the
prefix `pre` of `b`, `levRows` computes the final row of reversed-prefix
distances against all of `b`. -/
theorem levRows_spec (a b : List Char) :
    ∀ (ys pre : List Char), b = pre ++ ys →
    ∀ (prev : List Nat), prev.length = a.length + 1 →
      (∀ t, t < a.length + 1 → prev.getD t 0 =
        levDist ((a.take t).reverse) ((b.take pre.length).reverse)) →
      (levRows a ys prev (pre.length + 1)).length = a.length + 1 ∧
      ∀ t, t < a.length + 1 →
        (levRows a ys prev (pre.length + 1)).getD t 0 =
          levDist ((a.take t).reverse) b.reverse := by
  intro ys
  induction ys with
  | nil =>
    intro pre hb prev hlen hprev
    have hpe : pre = b := by simpa using hb.symm
    subst hpe
    rw [levRows]
    refine ⟨hlen, ?_⟩
    intro t ht
    rw [hprev t ht, List.take_length]
  | cons y ys' ih =>
    intro pre hb prev hlen hprev
    have hy : b.getD pre.length default = y := by
      rw [hb, List.getD_append_right _ _ _ _ (le_refl pre.length)]
      simp
    have hi : pre.length < b.length := by
      rw [hb]; simp
    rw [levRows]
    have hprev0 : ∀ t, t < a.length + 1 → prev.getD t 0 =
        levDist ((a.take (([] : List Char).length + t)).reverse)
          ((b.take pre.length).reverse) := by
      intro t ht
      rw [hprev t ht]
      exact levD_congr a b _ _ _ _ (by simp) rfl
    have hc0 : (pre.length + 1 : Nat) =
        levDist ((a.take ([] : List Char).length).reverse)
          ((b.take (pre.length + 1)).reverse) := by
      simp only [List.length_nil, List.take_zero, List.reverse_nil,
        levDist_nil_left, List.length_reverse, List.length_take]
      omega
    obtain ⟨hrowlen, hrowget⟩ := levRowGo_spec a b pre.length hi a []
      rfl prev (by simpa using hlen) hprev0 (pre.length + 1) hc0
    rw [hy] at hrowlen hrowget
    have hnewlen : ((pre.length + 1) ::
        levRowGo y a prev (pre.length + 1)).length = a.length + 1 := by
      simp [hrowlen]
    have hnewget : ∀ t, t < a.length + 1 →
        ((pre.length + 1) :: levRowGo y a prev (pre.length + 1)).getD t 0 =
          levDist ((a.take t).reverse) ((b.take ((pre ++ [y]).length)).reverse) := by
      intro t ht
      cases t with
      | zero =>
        rw [List.getD_cons_zero]
        simp only [List.take_zero, List.reverse_nil, levDist_nil_left,
          List.length_reverse, List.length_take, List.length_append,
          List.length_singleton]
        omega
      | succ t =>
        rw [List.getD_cons_succ]
        rw [hrowget t (by omega)]
        exact levD_congr a b _ _ _ _ (by simp) (by simp)
    have hb' : b = (pre ++ [y]) ++ ys' := by simp [hb]
    obtain ⟨hfin1, hfin2⟩ := ih (pre ++ [y]) hb' _ hnewlen hnewget
    have hplen : (pre ++ [y]).length + 1 = pre.length + 1 + 1 := by simp
    rw [hplen] at hfin1 hfin2
    exact ⟨hfin1, hfin2⟩

/-- The rolling two-row computation of `editDistance` agrees with the naive
reference `levDist` on every pair of strings (the argument swap is absorbed by
symmetry, the row orientation by reversal invariance). -/
theorem editDistance_eq_levDist (a b : List Char) :
    editDistance a b = levDist a b := by
  unfold editDistance
  by_cases ha : a.length = 0
  · rw [if_pos ha]
    have h0 : a = [] := List.length_eq_zero.mp ha
    subst h0
    rw [levDist_nil_left]
  · rw [if_neg ha]
    by_cases hb : b.length = 0
    · rw [if_pos hb]
      have h0 : b = [] := List.length_eq_zero.mp hb
      subst h0
      rw [levDist_nil_right]
    · rw [if_neg hb]
      have hrange : ∀ (u v : List Char), u.length + 1 > 0 →
          (∀ t, t < u.length + 1 →
            (List.range (u.length + 1)).getD t 0 =
              levDist ((u.take t).reverse) ((v.take 0).reverse)) := by
        intro u v _ t ht
        rw [getD_range _ t ht]
        simp only [List.take_zero, List.reverse_nil]
        rw [levDist_nil_right]
        simp only [List.length_reverse, List.length_take]
        omega
      by_cases hab : a.length > b.length
      · rw [if_pos hab]
        obtain ⟨hlen2, hget2⟩ := levRows_spec b a a [] rfl
          (List.range (b.length + 1)) (by simp) (hrange b a (by omega))
        have := hget2 b.length (by omega)
        simp only [List.take_length] at this
        show (levRows b a (List.range (b.length + 1)) 1).getD b.length 0 =
          levDist a b
        have h01 : (([] : List Char).length + 1) = 1 := rfl
        rw [h01] at this
        rw [this, levDist_reverse, levDist_comm]
      · rw [if_neg hab]
        obtain ⟨hlen2, hget2⟩ := levRows_spec a b b [] rfl
          (List.range (a.length + 1)) (by simp) (hrange a b (by omega))
        have := hget2 a.length (by omega)
        simp only [List.take_length] at this
        show (levRows a b (List.range (a.length + 1)) 1).getD a.length 0 =
          levDist a b
        have h01 : (([] : List Char).length + 1) = 1 := rfl
        rw [h01] at this
        rw [this, levDist_reverse]

/-- C6: `editDistance` equals the classic Levenshtein distance (the naive
reference recursion), despite the rolling two-row computation and the
argument swap for the shorter string; consequently it is symmetric,
`editDistance(a,a) = 0`, `editDistance("",b) = len(b)`, and `isFuzzyMatch` is
symmetric. -/
theorem claim_C6_editDistance_refines_levenshtein :
    (∀ a b : List Char, editDistance a b = levDist a b) ∧
    (∀ a b : List Char, editDistance a b = editDistance b a) ∧
    (∀ a : List Char, editDistance a a = 0) ∧
    (∀ b : List Char, editDistance [] b = b.length) ∧
    (∀ a b : List Char, isFuzzyMatch a b = isFuzzyMatch b a) := by
  have hsym : ∀ a b : List Char, editDistance a b = editDistance b a := by
    intro a b
    rw [editDistance_eq_levDist, editDistance_eq_levDist, levDist_comm]
  have hself : ∀ a : List Char, levDist a a = 0 := by
    intro a
    induction a with
    | nil => simp [levDist_nil_left]
    | cons x a ih => rw [levDist_cons_cons, if_pos rfl]; exact ih
  refine ⟨editDistance_eq_levDist, hsym, ?_, ?_, ?_⟩
  · intro a
    rw [editDistance_eq_levDist]
    exact hself a
  · intro b
    rw [editDistance_eq_levDist, levDist_nil_left]
  · intro a b
    unfold isFuzzyMatch
    rw [hsym a b, Nat.max_comm a.length b.length, Bool.or_comm]

theorem findLookahead_some {get : Nat → List Char} {len : Nat}
    {base : List Char} {idx la : Nat}
    (h : findLookahead get len base idx = some la) :
    1 ≤ la ∧ la ≤ 3 ∧ idx + la < len ∧
      laHit (normBase (get (idx + la))) base = true := by
  unfold findLookahead at h
  split_ifs at h with h1 h2 h3 <;>
    simp only [Option.some.injEq] at h <;> subst h <;>
    simp_all [Bool.and_eq_true, decide_eq_true_eq]

theorem alignStep_oi_lt (ws : List WWord) (os : List (List Char))
    (oi wi : Nat) : oi < (alignStep ws os oi wi).oi := by
  unfold alignStep
  try dsimp only
  repeat' split
  all_goals try dsimp only
  all_goals try omega
  all_goals
    rename_i la heq
    have h := findLookahead_some heq
    omega

theorem alignWalkGo_stable (ws : List WWord) (os : List (List Char)) :
    ∀ f1 f2 oi wi, os.length - oi ≤ f1 → os.length - oi ≤ f2 →
      alignWalkGo ws os f1 oi wi = alignWalkGo ws os f2 oi wi := by
  intro f1
  induction f1 with
  | zero =>
    intro f2 oi wi h1 h2
    have hlt : ¬ oi < os.length := by omega
    cases f2 with
    | zero => rfl
    | succ b => simp [alignWalkGo, hlt]
  | succ a ih =>
    intro f2 oi wi h1 h2
    by_cases hlt : oi < os.length
    · have hpos : os.length - oi ≠ 0 := by omega
      cases f2 with
      | zero => omega
      | succ b =>
        have hs := alignStep_oi_lt ws os oi wi
        simp only [alignWalkGo, hlt, if_true]
        rw [ih b _ _ (by omega) (by omega)]
    · cases f2 with
      | zero => simp [alignWalkGo, hlt]
      | succ b => simp [alignWalkGo, hlt]

theorem alignWalkGo_succ (ws : List WWord) (os : List (List Char))
    (fuel oi wi : Nat) :
    alignWalkGo ws os (fuel + 1) oi wi =
      if oi < os.length then
        (alignStep ws os oi wi).toks ++
          alignWalkGo ws os fuel (alignStep ws os oi wi).oi
            (alignStep ws os oi wi).wi
      else [] := rfl

/-- The loop-shaped unfolding of `alignWalk`. -/
theorem alignWalk_eq (ws : List WWord) (os : List (List Char)) (oi wi : Nat) :
    alignWalk ws os oi wi =
      if oi < os.length then
        let s := alignStep ws os oi wi
        s.toks ++ alignWalk ws os s.oi s.wi
      else [] := by
  by_cases hlt : oi < os.length
  · have h1 : os.length - oi = (os.length - oi - 1) + 1 := by omega
    have hs := alignStep_oi_lt ws os oi wi
    rw [if_pos hlt]
    show alignWalkGo ws os (os.length - oi) oi wi = _
    rw [h1, alignWalkGo_succ, if_pos hlt]
    rw [alignWalkGo_stable ws os (os.length - oi - 1)
      (os.length - (alignStep ws os oi wi).oi) _ _ (by omega) (by omega)]
    rfl
  · rw [if_neg hlt]
    show alignWalkGo ws os (os.length - oi) oi wi = []
    cases h : os.length - oi with
    | zero => rfl
    | succ b => rw [alignWalkGo_succ, if_neg hlt]

theorem fwdScanGo_eq (total : ℚ) : ∀ (ts : List AToken) (acc : Nat),
    fwdScanGo total ts acc =
      (nextStartOf total (ts.dropWhile sentStart),
        acc + (ts.takeWhile sentStart).length) := by
  intro ts
  induction ts with
  | nil => intro acc; rfl
  | cons u us ih =>
    intro acc
    by_cases hu : u.start = -1
    · have hs : sentStart u = true := by simp [sentStart, hu]
      rw [fwdScanGo, if_neg (by simpa using hu), List.dropWhile_cons,
        List.takeWhile_cons, hs]
      simp only [if_true]
      rw [ih (acc + 1)]
      simp only [List.length_cons]
      refine Prod.ext rfl ?_
      simp
      omega
    · have hs : sentStart u = false := by simp [sentStart, hu]
      rw [fwdScanGo, if_pos (by simpa using hu), List.dropWhile_cons,
        List.takeWhile_cons, hs]
      simp [nextStartOf]

theorem fwdScan_append (total : ℚ) (done : List AToken) (t : AToken)
    (ts : List AToken) :
    fwdScan total (done ++ t :: ts) done.length =
      (nextStartOf total (ts.dropWhile sentStart),
        1 + (ts.takeWhile sentStart).length) := by
  unfold fwdScan
  have hdrop : (done ++ t :: ts).drop (done.length + 1) = ts := by
    rw [List.drop_append 1]
    rfl
  rw [hdrop, fwdScanGo_eq]

theorem lastEnd_concat (l : List AToken) (x : AToken) :
    lastEnd (l ++ [x]) = x.endT := by
  cases l with
  | nil => rfl
  | cons z zs =>
    show lastEnd (z :: (zs ++ [x])) = x.endT
    have h0 : lastEnd (z :: (zs ++ [x])) =
        ((z :: (zs ++ [x])).getLastD default).endT := rfl
    rw [h0]
    have h1 : (z :: (zs ++ [x])).getLastD default = x := by
      rw [List.getLastD_eq_getLast?, ← List.cons_append, List.getLast?_concat]
      rfl
    rw [h1]

theorem backScanGo_real : ∀ (l : List AToken), (∀ t ∈ l, realT t) →
    backScanGo l.reverse = lastEnd l := by
  intro l
  induction l using List.reverseRecOn with
  | nil => intro h; rfl
  | append_singleton xs x ih =>
    intro h
    have hx : realT x := h x (by simp)
    have hne : x.endT ≠ -1 := by
      obtain ⟨h1, h2⟩ := hx
      intro hcon
      rw [hcon] at h2
      have : (0 : ℚ) ≤ -1 := le_trans h1 h2
      norm_num at this
    rw [List.reverse_append]
    have hrw : ([x] : List AToken).reverse ++ xs.reverse = x :: xs.reverse := by
      simp
    rw [hrw, backScanGo, if_pos hne, lastEnd_concat]

theorem backScan_append (done rest : List AToken)
    (hdone : ∀ t ∈ done, realT t) :
    backScan (done ++ rest) done.length = lastEnd done := by
  unfold backScan
  rw [List.take_left]
  exact backScanGo_real done hdone

theorem takeWhile_append_all {α : Type _} {p : α → Bool} :
    ∀ (l1 l2 : List α), (∀ x ∈ l1, p x = true) →
      (l1 ++ l2).takeWhile p = l1 ++ l2.takeWhile p := by
  intro l1
  induction l1 with
  | nil => intro l2 h; rfl
  | cons a l ih =>
    intro l2 h
    rw [List.cons_append, List.takeWhile_cons, h a (by simp)]
    simp only [if_true]
    rw [ih l2 (fun x hx => h x (by simp [hx]))]
    rfl

theorem dropWhile_append_all {α : Type _} {p : α → Bool} :
    ∀ (l1 l2 : List α), (∀ x ∈ l1, p x = true) →
      (l1 ++ l2).dropWhile p = l2.dropWhile p := by
  intro l1
  induction l1 with
  | nil => intro l2 h; rfl
  | cons a l ih =>
    intro l2 h
    rw [List.cons_append, List.dropWhile_cons, h a (by simp)]
    simp only [if_true]
    exact ih l2 (fun x hx => h x (by simp [hx]))

theorem takeWhile_head_false {α : Type _} {p : α → Bool} (l : List α)
    (h : ∀ u, l.head? = some u → p u = false) : l.takeWhile p = [] := by
  cases l with
  | nil => rfl
  | cons a l =>
    rw [List.takeWhile_cons, h a rfl]
    rfl

theorem dropWhile_head_false {α : Type _} {p : α → Bool} (l : List α)
    (h : ∀ u, l.head? = some u → p u = false) : l.dropWhile p = l := by
  cases l with
  | nil => rfl
  | cons a l =>
    rw [List.dropWhile_cons, h a rfl]
    rfl

theorem fillRunGo_length (pe st : ℚ) :
    ∀ (l : List AToken) (p : Nat), (fillRunGo pe st l p).length = l.length := by
  intro l
  induction l with
  | nil => intro p; rfl
  | cons t ts ih => intro p; simp [fillRunGo, ih]

theorem fillRunGo_getD (pe st : ℚ) :
    ∀ (l : List AToken) (p k : Nat), k < l.length →
      (fillRunGo pe st l p).getD k default =
        { l.getD k default with
            start := pe + st * ((p + k : ℕ) : ℚ),
            endT := pe + st * (((p + k : ℕ) : ℚ) + 4/5) } := by
  intro l
  induction l with
  | nil => intro p k h; simp at h
  | cons t ts ih =>
    intro p k h
    cases k with
    | zero => simp [fillRunGo]
    | succ k =>
      rw [fillRunGo, List.getD_cons_succ, List.getD_cons_succ,
        ih (p + 1) k (by simpa using h)]
      have : p + 1 + k = p + (k + 1) := by omega
      rw [this]

theorem fillRunGo_mem (pe st : ℚ) :
    ∀ (l : List AToken) (p : Nat) (t : AToken), t ∈ fillRunGo pe st l p →
      ∃ k, p ≤ k ∧ k < p + l.length ∧ t.start = pe + st * (k : ℚ) ∧
        t.endT = pe + st * ((k : ℚ) + 4/5) := by
  intro l
  induction l with
  | nil => intro p t h; simp [fillRunGo] at h
  | cons u us ih =>
    intro p t h
    rw [fillRunGo] at h
    rcases List.mem_cons.mp h with h | h
    · exact ⟨p, le_rfl, by simp, by rw [h], by rw [h]⟩
    · obtain ⟨k, h1, h2, h3, h4⟩ := ih (p + 1) t h
      exact ⟨k, by omega, by simp; omega, h3, h4⟩

theorem fillAll_nil (total P : ℚ) : fillAll total P [] = [] := by
  rw [fillAll]

theorem fillAll_cons_sent (total P : ℚ) (t : AToken) (ts : List AToken)
    (h : t.start = -1) :
    fillAll total P (t :: ts) =
      fillRunGo P
        ((nextStartOf total (ts.dropWhile sentStart) - P) /
          (((t :: ts.takeWhile sentStart).length : ℚ) + 1))
        (t :: ts.takeWhile sentStart) 1 ++
        fillAll total P (ts.dropWhile sentStart) := by
  rw [fillAll, if_pos h]

theorem fillAll_cons_real (total P : ℚ) (t : AToken) (ts : List AToken)
    (h : ¬ t.start = -1) :
    fillAll total P (t :: ts) = t :: fillAll total t.endT ts := by
  rw [fillAll, if_neg h]

theorem gapOk_take_drop (total : ℚ) : ∀ (r : List AToken) (P : ℚ),
    GapOk total P r →
      GapOk total P (r.dropWhile sentStart) ∧
      ∀ t ∈ r.takeWhile sentStart, t.start = -1 ∧ t.endT = -1 := by
  intro r
  induction r with
  | nil => intro P h; exact ⟨h, by simp⟩
  | cons t ts ih =>
    intro P h
    rcases h with ⟨h1, h2, h3⟩ | ⟨h1, h2, h3⟩
    · have hs : sentStart t = true := by simp [sentStart, h1]
      rw [List.dropWhile_cons, List.takeWhile_cons, hs]
      simp only [if_true]
      obtain ⟨ih1, ih2⟩ := ih P h3
      refine ⟨ih1, ?_⟩
      intro u hu
      rcases List.mem_cons.mp hu with hu | hu
      · rw [hu]; exact ⟨h1, h2⟩
      · exact ih2 u hu
    · have hs : sentStart t = false := by
        obtain ⟨hr1, hr2⟩ := h1
        simp only [sentStart, decide_eq_false_iff_not]
        intro hcon
        rw [hcon] at hr1
        norm_num at hr1
      rw [List.dropWhile_cons, List.takeWhile_cons, hs]
      simp only [Bool.false_eq_true, if_false]
      exact ⟨Or.inr ⟨h1, h2, h3⟩, by simp⟩

theorem gapOk_nextStart_drop (total : ℚ) : ∀ (r : List AToken) (P : ℚ),
    GapOk total P r → P ≤ nextStartOf total (r.dropWhile sentStart) := by
  intro r
  induction r with
  | nil => intro P h; exact h
  | cons t ts ih =>
    intro P h
    rcases h with ⟨h1, h2, h3⟩ | ⟨h1, h2, h3⟩
    · have hs : sentStart t = true := by simp [sentStart, h1]
      rw [List.dropWhile_cons, hs]
      simp only [if_true]
      exact ih P h3
    · have hs : sentStart t = false := by
        obtain ⟨hr1, hr2⟩ := h1
        simp only [sentStart, decide_eq_false_iff_not]
        intro hcon
        rw [hcon] at hr1
        norm_num at hr1
      rw [List.dropWhile_cons, hs]
      simp only [Bool.false_eq_true, if_false]
      exact h2

theorem interpFill_before (pe st : ℚ) (i g : Nat) :
    ∀ (l : List AToken) (j : Nat), j + l.length ≤ i →
      interpFill pe st i g l j = l := by
  intro l
  induction l with
  | nil => intro j h; rfl
  | cons t ts ih =>
    intro j h
    simp only [List.length_cons] at h
    rw [interpFill, if_neg (show ¬(i ≤ j ∧ j < i + g) by omega),
      ih (j + 1) (by omega)]

theorem interpFill_after (pe st : ℚ) (i g : Nat) :
    ∀ (l : List AToken) (j : Nat), i + g ≤ j →
      interpFill pe st i g l j = l := by
  intro l
  induction l with
  | nil => intro j h; rfl
  | cons t ts ih =>
    intro j h
    rw [interpFill, if_neg (show ¬(i ≤ j ∧ j < i + g) by omega),
      ih (j + 1) (by omega)]

theorem interpFill_append (pe st : ℚ) (i g : Nat) :
    ∀ (l1 l2 : List AToken) (j : Nat),
      interpFill pe st i g (l1 ++ l2) j =
        interpFill pe st i g l1 j ++ interpFill pe st i g l2 (j + l1.length) := by
  intro l1
  induction l1 with
  | nil => intro l2 j; simp [interpFill]
  | cons t ts ih =>
    intro l2 j
    rw [List.cons_append, interpFill, interpFill, ih l2 (j + 1),
      List.cons_append]
    have hidx : j + 1 + ts.length = j + (t :: ts).length := by
      simp only [List.length_cons]
      omega
    rw [hidx]

theorem interpFill_run (pe st : ℚ) (i g : Nat) :
    ∀ (l : List AToken) (j : Nat), i ≤ j → j + l.length ≤ i + g →
      interpFill pe st i g l j = fillRunGo pe st l (j - i + 1) := by
  intro l
  induction l with
  | nil => intro j h1 h2; rfl
  | cons t ts ih =>
    intro j h1 h2
    simp only [List.length_cons] at h2
    rw [interpFill, if_pos (show i ≤ j ∧ j < i + g from ⟨h1, by omega⟩),
      fillRunGo, ih (j + 1) (by omega) (by omega)]
    have harith : j + 1 - i + 1 = j - i + 1 + 1 := by omega
    rw [harith]

theorem lastEnd_nonneg (done : List AToken) (hdone : ∀ u ∈ done, realT u) :
    0 ≤ lastEnd done := by
  induction done using List.reverseRecOn with
  | nil => exact le_refl 0
  | append_singleton xs x ih =>
    rw [lastEnd_concat]
    have hx := hdone x (by simp)
    exact le_trans hx.1 hx.2

theorem lastEnd_append_ne_nil (l1 : List AToken) :
    ∀ (l2 : List AToken), l2 ≠ [] → lastEnd (l1 ++ l2) = lastEnd l2 := by
  intro l2
  induction l2 using List.reverseRecOn with
  | nil => intro h; exact absurd rfl h
  | append_singleton xs x ih =>
    intro h
    rw [← List.append_assoc, lastEnd_concat, lastEnd_concat]

theorem fillRunGo_ne_nil (pe st : ℚ) (t : AToken) (l : List AToken) (p : Nat) :
    fillRunGo pe st (t :: l) p ≠ [] := by
  rw [fillRunGo]
  exact List.cons_ne_nil _ _

theorem fillRunGo_lastEnd (pe st : ℚ) :
    ∀ (l : List AToken) (t : AToken) (p : Nat),
      lastEnd (fillRunGo pe st (t :: l) p) =
        pe + st * (((p + l.length : ℕ) : ℚ) + 4/5) := by
  intro l
  induction l with
  | nil =>
    intro t p
    have h1 : fillRunGo pe st [t] p =
        [{ t with
          start := pe + st * (p : ℚ),
          endT := pe + st * ((p : ℚ) + 4/5) }] := rfl
    rw [h1]
    have h2 : lastEnd [{ t with
          start := pe + st * (p : ℚ),
          endT := pe + st * ((p : ℚ) + 4/5) }] =
        pe + st * ((p : ℚ) + 4/5) := rfl
    rw [h2]
    push_cast [List.length_nil]
    ring
  | cons u us ih =>
    intro t p
    rw [fillRunGo]
    have hne : fillRunGo pe st (u :: us) (p + 1) ≠ [] :=
      fillRunGo_ne_nil pe st u us (p + 1)
    have hcons : ∀ tok : AToken,
        lastEnd (tok :: fillRunGo pe st (u :: us) (p + 1)) =
          lastEnd (fillRunGo pe st (u :: us) (p + 1)) := by
      intro tok
      rw [show tok :: fillRunGo pe st (u :: us) (p + 1) =
        [tok] ++ fillRunGo pe st (u :: us) (p + 1) from rfl]
      exact lastEnd_append_ne_nil [tok] _ hne
    rw [hcons, ih u (p + 1)]
    push_cast [List.length_cons]
    ring

/-- One firing of the interpolation loop at a run start: the processed prefix
is untouched, the maximal sentinel run is filled from its anchors, and the
rest of the list is untouched. -/
theorem interpOne_eq (total : ℚ) (done : List AToken) (t : AToken)
    (ts : List AToken) (hdone : ∀ u ∈ done, realT u) (ht : t.start = -1) :
    interpOne total (done ++ t :: ts) done.length =
      done ++
        (fillRunGo (lastEnd done)
          ((nextStartOf total (ts.dropWhile sentStart) - lastEnd done) /
            (((t :: ts.takeWhile sentStart).length : ℚ) + 1))
          (t :: ts.takeWhile sentStart) 1 ++
          ts.dropWhile sentStart) := by
  unfold interpOne
  rw [backScan_append done (t :: ts) hdone, fwdScan_append]
  dsimp only
  have hsplit : t :: ts =
      (t :: ts.takeWhile sentStart) ++ ts.dropWhile sentStart := by
    rw [List.cons_append, List.takeWhile_append_dropWhile]
  rw [show done ++ t :: ts =
      done ++ ((t :: ts.takeWhile sentStart) ++ ts.dropWhile sentStart) from
      by rw [← hsplit]]
  rw [interpFill_append, interpFill_append]
  rw [interpFill_before _ _ _ _ done 0 (by omega)]
  have hg : (t :: ts.takeWhile sentStart).length =
      (ts.takeWhile sentStart).length + 1 := by simp
  rw [interpFill_run _ _ _ _ (t :: ts.takeWhile sentStart) (0 + done.length)
    (by omega) (by rw [hg]; omega)]
  rw [interpFill_after _ _ _ _ (ts.dropWhile sentStart)
    (0 + done.length + (t :: ts.takeWhile sentStart).length)
    (by rw [hg]; omega)]
  have hpos : 0 + done.length - done.length + 1 = 1 := by omega
  rw [hpos]
  congr 2
  rw [hg]
  push_cast
  ring

theorem interpGo_skip (total : ℚ) :
    ∀ (m more : List Nat) (r : List AToken),
      (∀ idx ∈ m, ¬ (r.getD idx default).start = -1) →
      interpGo total r (m ++ more) = interpGo total r more := by
  intro m
  induction m with
  | nil => intro more r h; rfl
  | cons i m ih =>
    intro more r h
    rw [List.cons_append, interpGo, if_neg (h i (by simp))]
    exact ih more r (fun idx hidx => h idx (by simp [hidx]))

theorem range_map_add_split (dl g m : Nat) :
    (List.range (g + m)).map (dl + ·) =
      (List.range g).map (dl + ·) ++
        (List.range m).map (fun x => dl + (g + x)) := by
  rw [List.range_add, List.map_append, List.map_map]
  rfl

theorem dropWhile_head_not {α : Type _} {p : α → Bool} :
    ∀ (l : List α) (u : α) (us : List α), l.dropWhile p = u :: us →
      p u = false := by
  intro l
  induction l with
  | nil => intro u us h; simp at h
  | cons a l ih =>
    intro u us h
    rw [List.dropWhile_cons] at h
    by_cases hp : p a = true
    · rw [if_pos hp] at h
      exact ih u us h
    · rw [if_neg hp] at h
      have h1 : a = u := (List.cons.injEq a l u us ▸ h).1
      rw [← h1]
      exact Bool.eq_false_iff.mpr hp

theorem gapOk_of_head_ok (total X P : ℚ) (rd : List AToken)
    (hgapP : GapOk total P rd)
    (hhead : ∀ u us, rd = u :: us → ¬ u.start = -1)
    (hle : X ≤ nextStartOf total rd) : GapOk total X rd := by
  cases rd with
  | nil => exact hle
  | cons u us =>
    rcases hgapP with ⟨h1, h2, h3⟩ | ⟨h1, h2, h3⟩
    · exact absurd h1 (hhead u us rfl)
    · exact Or.inr ⟨h1, hle, h3⟩

theorem fillAll_prevEnd_head (total X Y : ℚ) (rd : List AToken)
    (hhead : ∀ u us, rd = u :: us → ¬ u.start = -1) :
    fillAll total X rd = fillAll total Y rd := by
  cases rd with
  | nil => rw [fillAll_nil, fillAll_nil]
  | cons u us =>
    have h := hhead u us rfl
    rw [fillAll_cons_real _ _ _ _ h, fillAll_cons_real _ _ _ _ h]

/-- The interpolation driver agrees with the reference `fillAll`: the
processed prefix `done` (all real) is untouched and the remaining suffix is
run-filled from its anchors, provided the suffix is chronologically
well-formed relative to the prefix's final end time. -/
theorem interpGo_fillAll (total : ℚ) :
    ∀ (n : Nat) (rest done : List AToken), rest.length ≤ n →
      (∀ u ∈ done, realT u) →
      GapOk total (lastEnd done) rest →
      interpGo total (done ++ rest)
        ((List.range rest.length).map (fun x => done.length + x)) =
      done ++ fillAll total (lastEnd done) rest := by
  intro n
  induction n with
  | zero =>
    intro rest done hn hdone hgap
    have h0 : rest = [] := List.length_eq_zero.mp (by omega)
    subst h0
    simp [interpGo, fillAll_nil]
  | succ n ih =>
    intro rest done hn hdone hgap
    cases rest with
    | nil => simp [interpGo, fillAll_nil]
    | cons t ts =>
      have hget : (done ++ t :: ts).getD done.length default = t := by
        rw [List.getD_append_right _ _ _ _ (le_refl done.length)]
        simp
      by_cases ht : t.start = -1
      · -- a sentinel run begins here
        have hgap2 : GapOk total (lastEnd done) ts := by
          rcases hgap with ⟨h1, h2, h3⟩ | ⟨h1, h2, h3⟩
          · exact h3
          · exfalso
            obtain ⟨hr1, hr2⟩ := h1
            rw [ht] at hr1
            norm_num at hr1
        obtain ⟨hdrop, htake⟩ := gapOk_take_drop total ts (lastEnd done) hgap2
        have hP0 : 0 ≤ lastEnd done := lastEnd_nonneg done hdone
        have hns : lastEnd done ≤ nextStartOf total (ts.dropWhile sentStart) := gapOk_nextStart_drop total ts (lastEnd done) hgap2
        have hden0 : (0:ℚ) < (((t :: ts.takeWhile sentStart).length : ℚ) + 1) := by positivity
        have hstep0 : (0:ℚ) ≤ ((nextStartOf total (ts.dropWhile sentStart) - lastEnd done) / (((t :: ts.takeWhile sentStart).length : ℚ) + 1)) :=
          div_nonneg (sub_nonneg.mpr hns) (le_of_lt hden0)
        have hlen_td : (ts.takeWhile sentStart).length + (ts.dropWhile sentStart).length = ts.length := by
          rw [← List.length_append, List.takeWhile_append_dropWhile]
        have hrunlen : (fillRunGo (lastEnd done) ((nextStartOf total (ts.dropWhile sentStart) - lastEnd done) / (((t :: ts.takeWhile sentStart).length : ℚ) + 1)) (t :: ts.takeWhile sentStart) 1).length = (ts.takeWhile sentStart).length + 1 := by
          rw [fillRunGo_length]
          rfl
        have hrunreal : ∀ u ∈ fillRunGo (lastEnd done) ((nextStartOf total (ts.dropWhile sentStart) - lastEnd done) / (((t :: ts.takeWhile sentStart).length : ℚ) + 1)) (t :: ts.takeWhile sentStart) 1, realT u := by
          intro u hu
          obtain ⟨k, hk1, hk2, hk3, hk4⟩ := fillRunGo_mem _ _ _ _ _ hu
          constructor
          · rw [hk3]
            have hm : (0:ℚ) ≤ ((nextStartOf total (ts.dropWhile sentStart) - lastEnd done) / (((t :: ts.takeWhile sentStart).length : ℚ) + 1)) * (k : ℚ) :=
              mul_nonneg hstep0 (by positivity)
            linarith
          · rw [hk3, hk4]
            have hm : ((nextStartOf total (ts.dropWhile sentStart) - lastEnd done) / (((t :: ts.takeWhile sentStart).length : ℚ) + 1)) * (k:ℚ) ≤ ((nextStartOf total (ts.dropWhile sentStart) - lastEnd done) / (((t :: ts.takeWhile sentStart).length : ℚ) + 1)) * ((k:ℚ) + 4/5) :=
              mul_le_mul_of_nonneg_left (by linarith) hstep0
            linarith
        have hdone2 : ∀ u ∈ done ++ fillRunGo (lastEnd done) ((nextStartOf total (ts.dropWhile sentStart) - lastEnd done) / (((t :: ts.takeWhile sentStart).length : ℚ) + 1)) (t :: ts.takeWhile sentStart) 1, realT u := by
          intro u hu
          rcases List.mem_append.mp hu with hu | hu
          · exact hdone u hu
          · exact hrunreal u hu
        have hrun_ne : fillRunGo (lastEnd done) ((nextStartOf total (ts.dropWhile sentStart) - lastEnd done) / (((t :: ts.takeWhile sentStart).length : ℚ) + 1)) (t :: ts.takeWhile sentStart) 1 ≠ [] := fillRunGo_ne_nil _ _ _ _ _
        have hlastE : lastEnd (done ++ fillRunGo (lastEnd done) ((nextStartOf total (ts.dropWhile sentStart) - lastEnd done) / (((t :: ts.takeWhile sentStart).length : ℚ) + 1)) (t :: ts.takeWhile sentStart) 1) =
            lastEnd done + ((nextStartOf total (ts.dropWhile sentStart) - lastEnd done) / (((t :: ts.takeWhile sentStart).length : ℚ) + 1)) * (((1 + (ts.takeWhile sentStart).length : ℕ) : ℚ) + 4/5) := by
          rw [lastEnd_append_ne_nil done _ hrun_ne, fillRunGo_lastEnd]
        have hq : (((1 + (ts.takeWhile sentStart).length : ℕ) : ℚ) + 4/5) ≤ (((t :: ts.takeWhile sentStart).length : ℚ) + 1) := by
          push_cast [List.length_cons]
          linarith
        have hSD : ((nextStartOf total (ts.dropWhile sentStart) - lastEnd done) / (((t :: ts.takeWhile sentStart).length : ℚ) + 1)) * (((t :: ts.takeWhile sentStart).length : ℚ) + 1) = nextStartOf total (ts.dropWhile sentStart) - lastEnd done :=
          div_mul_cancel₀ _ (ne_of_gt hden0)
        have hXle : lastEnd (done ++ fillRunGo (lastEnd done) ((nextStartOf total (ts.dropWhile sentStart) - lastEnd done) / (((t :: ts.takeWhile sentStart).length : ℚ) + 1)) (t :: ts.takeWhile sentStart) 1) ≤ nextStartOf total (ts.dropWhile sentStart) := by
          rw [hlastE]
          have hm : ((nextStartOf total (ts.dropWhile sentStart) - lastEnd done) / (((t :: ts.takeWhile sentStart).length : ℚ) + 1)) * (((1 + (ts.takeWhile sentStart).length : ℕ) : ℚ) + 4/5) ≤
              ((nextStartOf total (ts.dropWhile sentStart) - lastEnd done) / (((t :: ts.takeWhile sentStart).length : ℚ) + 1)) * (((t :: ts.takeWhile sentStart).length : ℚ) + 1) :=
            mul_le_mul_of_nonneg_left hq hstep0
          linarith
        have hgap3 : GapOk total (lastEnd (done ++ fillRunGo (lastEnd done) ((nextStartOf total (ts.dropWhile sentStart) - lastEnd done) / (((t :: ts.takeWhile sentStart).length : ℚ) + 1)) (t :: ts.takeWhile sentStart) 1)) (ts.dropWhile sentStart) :=
          gapOk_of_head_ok total _ (lastEnd done) (ts.dropWhile sentStart) hdrop
            (fun u us h => by simpa [sentStart] using dropWhile_head_not ts u us h)
            hXle
        have hskip : ∀ idx ∈ (List.range (ts.takeWhile sentStart).length).map
            ((fun x => done.length + x) ∘ Nat.succ),
            ¬ (((done ++ (fillRunGo (lastEnd done) ((nextStartOf total (ts.dropWhile sentStart) - lastEnd done) / (((t :: ts.takeWhile sentStart).length : ℚ) + 1)) (t :: ts.takeWhile sentStart) 1 ++ ts.dropWhile sentStart)).getD idx default).start = -1) := by
          intro idx hidx
          obtain ⟨x, hx1, hx2⟩ := List.mem_map.mp hidx
          have hxlt : x < (ts.takeWhile sentStart).length := List.mem_range.mp hx1
          have hidx_eq : idx = done.length + (x + 1) := by rw [← hx2]; rfl
          rw [hidx_eq, List.getD_append_right _ _ _ _ (by omega)]
          have hsub : done.length + (x + 1) - done.length = x + 1 := by omega
          rw [hsub, List.getD_append _ _ _ _ (by rw [hrunlen]; omega)]
          rw [fillRunGo_getD _ _ _ _ _ (by simp only [List.length_cons]; omega)]
          intro hcon
          simp only at hcon
          have hge : (0:ℚ) ≤ lastEnd done + ((nextStartOf total (ts.dropWhile sentStart) - lastEnd done) / (((t :: ts.takeWhile sentStart).length : ℚ) + 1)) * (((1 + (x + 1) : ℕ)) : ℚ) :=
            add_nonneg hP0 (mul_nonneg hstep0 (by positivity))
          rw [hcon] at hge
          norm_num at hge
        have hLL : (t :: ts).length =
            (1 + (ts.takeWhile sentStart).length) + (ts.dropWhile sentStart).length := by
          simp only [List.length_cons]
          omega
        rw [hLL, range_map_add_split,
          show 1 + (ts.takeWhile sentStart).length = (ts.takeWhile sentStart).length + 1 from by omega]
        have hhead : (List.range ((ts.takeWhile sentStart).length + 1)).map
            (fun x => done.length + x) =
            done.length :: (List.range (ts.takeWhile sentStart).length).map
              ((fun x => done.length + x) ∘ Nat.succ) := by
          rw [List.range_succ_eq_map, List.map_cons, List.map_map]
          rfl
        rw [hhead, List.cons_append, interpGo, hget, if_pos ht]
        rw [interpOne_eq total done t ts hdone ht]
        rw [interpGo_skip total _ _ _ hskip]
        have hidx2 : (List.range (ts.dropWhile sentStart).length).map
            (fun x => done.length + ((ts.takeWhile sentStart).length + 1 + x)) =
            (List.range (ts.dropWhile sentStart).length).map
              (fun x => (done ++ fillRunGo (lastEnd done) ((nextStartOf total (ts.dropWhile sentStart) - lastEnd done) / (((t :: ts.takeWhile sentStart).length : ℚ) + 1)) (t :: ts.takeWhile sentStart) 1).length + x) :=
          List.map_congr_left (fun x _ => by
            simp only [List.length_append, hrunlen]
            omega)
        rw [← List.append_assoc, hidx2,
          ih (ts.dropWhile sentStart) (done ++ fillRunGo (lastEnd done) ((nextStartOf total (ts.dropWhile sentStart) - lastEnd done) / (((t :: ts.takeWhile sentStart).length : ℚ) + 1)) (t :: ts.takeWhile sentStart) 1) (by omega) hdone2 hgap3]
        have hfa : fillAll total (lastEnd (done ++ fillRunGo (lastEnd done) ((nextStartOf total (ts.dropWhile sentStart) - lastEnd done) / (((t :: ts.takeWhile sentStart).length : ℚ) + 1)) (t :: ts.takeWhile sentStart) 1)) (ts.dropWhile sentStart) =
            fillAll total (lastEnd done) (ts.dropWhile sentStart) :=
          fillAll_prevEnd_head total _ _ (ts.dropWhile sentStart)
            (fun u us h => by simpa [sentStart] using dropWhile_head_not ts u us h)
        rw [hfa, fillAll_cons_sent total (lastEnd done) t ts ht, List.append_assoc]
      · -- a real token: untouched, prevEnd advances
        have hreal : realT t ∧ lastEnd done ≤ t.start ∧ GapOk total t.endT ts := by
          rcases hgap with ⟨h1, h2, h3⟩ | h
          · exact absurd h1 ht
          · exact h
        obtain ⟨htreal, htle, htchain⟩ := hreal
        have hhead : (List.range ((t :: ts).length)).map
            (fun x => done.length + x) =
            done.length :: (List.range ts.length).map
              ((fun x => done.length + x) ∘ Nat.succ) := by
          rw [show (t :: ts).length = ts.length + 1 from rfl,
            List.range_succ_eq_map, List.map_cons, List.map_map]
          rfl
        rw [hhead, interpGo, hget, if_neg ht]
        have hidx2 : (List.range ts.length).map
            ((fun x => done.length + x) ∘ Nat.succ) =
            (List.range ts.length).map (fun x => (done ++ [t]).length + x) :=
          List.map_congr_left (fun x _ => by
            simp only [Function.comp_apply, List.length_append,
              List.length_singleton]
            omega)
        have hd2 : ∀ u ∈ done ++ [t], realT u := by
          intro u hu
          rcases List.mem_append.mp hu with hu | hu
          · exact hdone u hu
          · simp at hu
            rw [hu]
            exact htreal
        have hg2 : GapOk total (lastEnd (done ++ [t])) ts := by
          rw [lastEnd_concat]
          exact htchain
        have hassoc : done ++ t :: ts = (done ++ [t]) ++ ts := by simp
        have hn2 : ts.length ≤ n := by
          simp only [List.length_cons] at hn
          omega
        rw [hidx2, hassoc, ih ts (done ++ [t]) hn2 hd2 hg2,
          fillAll_cons_real total (lastEnd done) t ts ht, lastEnd_concat]
        simp

theorem interpolate_eq_fillAll (total : ℚ) (r : List AToken)
    (h : GapOk total 0 r) : interpolate total r = fillAll total 0 r := by
  have h0 : GapOk total (lastEnd ([] : List AToken)) r := h
  have hmain := interpGo_fillAll total r.length r [] le_rfl (by simp) h0
  have hidx : (List.range r.length).map
      (fun x => ([] : List AToken).length + x) = List.range r.length := by
    have hcong : ∀ x ∈ List.range r.length,
        ([] : List AToken).length + x = x := by
      intro x _
      simp
    rw [List.map_congr_left hcong]
    exact List.map_id _
  rw [List.nil_append, hidx] at hmain
  exact hmain

/-- Under chronological well-formedness, every token `fillAll` produces has
nonnegative, ordered timing. -/
theorem fillAll_real (total : ℚ) :
    ∀ (n : Nat) (r : List AToken) (P : ℚ), r.length ≤ n → GapOk total P r →
      0 ≤ P → ∀ t ∈ fillAll total P r, realT t := by
  intro n
  induction n with
  | zero =>
    intro r P hn hgap hP
    have h0 : r = [] := List.length_eq_zero.mp (by omega)
    subst h0
    simp [fillAll_nil]
  | succ n ih =>
    intro r P hn hgap hP
    cases r with
    | nil => simp [fillAll_nil]
    | cons t ts =>
      by_cases ht : t.start = -1
      · have hgap2 : GapOk total P ts := by
          rcases hgap with ⟨h1, h2, h3⟩ | ⟨h1, h2, h3⟩
          · exact h3
          · exfalso
            obtain ⟨hr1, hr2⟩ := h1
            rw [ht] at hr1
            norm_num at hr1
        obtain ⟨hdrop, htake⟩ := gapOk_take_drop total ts P hgap2
        have hns : P ≤ nextStartOf total (ts.dropWhile sentStart) :=
          gapOk_nextStart_drop total ts P hgap2
        have hstep0 : (0:ℚ) ≤ (nextStartOf total (ts.dropWhile sentStart) - P) /
            (((t :: ts.takeWhile sentStart).length : ℚ) + 1) :=
          div_nonneg (sub_nonneg.mpr hns) (by positivity)
        rw [fillAll_cons_sent _ _ _ _ ht]
        intro u hu
        rcases List.mem_append.mp hu with hu | hu
        · obtain ⟨k, hk1, hk2, hk3, hk4⟩ := fillRunGo_mem _ _ _ _ _ hu
          constructor
          · rw [hk3]
            have hm : (0:ℚ) ≤ (nextStartOf total (ts.dropWhile sentStart) - P) /
                (((t :: ts.takeWhile sentStart).length : ℚ) + 1) * (k : ℚ) :=
              mul_nonneg hstep0 (by positivity)
            linarith
          · rw [hk3, hk4]
            have hm : (nextStartOf total (ts.dropWhile sentStart) - P) /
                  (((t :: ts.takeWhile sentStart).length : ℚ) + 1) * (k:ℚ) ≤
                (nextStartOf total (ts.dropWhile sentStart) - P) /
                  (((t :: ts.takeWhile sentStart).length : ℚ) + 1) *
                  ((k:ℚ) + 4/5) :=
              mul_le_mul_of_nonneg_left (by linarith) hstep0
            linarith
        · have hrdn : (ts.dropWhile sentStart).length ≤ n := by
            have := (List.dropWhile_suffix (l := ts) sentStart).length_le
            simp only [List.length_cons] at hn
            omega
          exact ih (ts.dropWhile sentStart) P hrdn hdrop hP u hu
      · have hreal : realT t ∧ P ≤ t.start ∧ GapOk total t.endT ts := by
          rcases hgap with ⟨h1, h2, h3⟩ | h
          · exact absurd h1 ht
          · exact h
        obtain ⟨htreal, htle, htchain⟩ := hreal
        rw [fillAll_cons_real _ _ _ _ ht]
        intro u hu
        rcases List.mem_cons.mp hu with hu | hu
        · rw [hu]; exact htreal
        · have hn2 : ts.length ≤ n := by
            simp only [List.length_cons] at hn
            omega
          exact ih ts t.endT hn2 htchain (le_trans htreal.1 htreal.2) u hu

theorem fillAll_length (total : ℚ) :
    ∀ (n : Nat) (r : List AToken) (P : ℚ), r.length ≤ n →
      (fillAll total P r).length = r.length := by
  intro n
  induction n with
  | zero =>
    intro r P hn
    have h0 : r = [] := List.length_eq_zero.mp (by omega)
    subst h0
    rw [fillAll_nil]
  | succ n ih =>
    intro r P hn
    cases r with
    | nil => rw [fillAll_nil]
    | cons t ts =>
      have hlen_td : (ts.takeWhile sentStart).length +
          (ts.dropWhile sentStart).length = ts.length := by
        rw [← List.length_append, List.takeWhile_append_dropWhile]
      by_cases ht : t.start = -1
      · rw [fillAll_cons_sent _ _ _ _ ht]
        rw [List.length_append, fillRunGo_length]
        have hrdn : (ts.dropWhile sentStart).length ≤ n := by
          have := (List.dropWhile_suffix (l := ts) sentStart).length_le
          simp only [List.length_cons] at hn
          omega
        rw [ih (ts.dropWhile sentStart) P hrdn]
        simp only [List.length_cons]
        omega
      · rw [fillAll_cons_real _ _ _ _ ht]
        have hn2 : ts.length ≤ n := by
          simp only [List.length_cons] at hn
          omega
        simp only [List.length_cons, ih ts t.endT hn2]

theorem wsOk_start_le_end (ws : List WWord) (h : WsOk ws) (k : Nat)
    (hk : k < ws.length) :
    0 ≤ (ws.getD k default).start ∧
      (ws.getD k default).start ≤ (ws.getD k default).endT := by
  have hmem : ws.getD k default ∈ ws := by
    rw [List.getD_eq_getElem?_getD, List.getElem?_eq_getElem hk]
    exact List.getElem_mem hk
  exact h.1 _ hmem

theorem wsOk_chain (ws : List WWord) (h : WsOk ws) :
    ∀ (d k : Nat), k + d + 1 < ws.length →
      (ws.getD k default).endT ≤ (ws.getD (k + d + 1) default).start := by
  intro d
  induction d with
  | zero => intro k hk; exact h.2 k (by omega)
  | succ d ih =>
    intro k hk
    have h1 := ih k (by omega)
    have h2 := (wsOk_start_le_end ws h (k + d + 1) (by omega)).2
    have h3 := h.2 (k + d + 1) (by omega)
    have hidx : k + (d + 1) + 1 = k + d + 1 + 1 := by omega
    rw [hidx]
    linarith

theorem getLastD_eq_getD (ws : List WWord) :
    ws.getLastD default = ws.getD (ws.length - 1) default := by
  rw [List.getLastD_eq_getLast?, List.getLast?_eq_getElem?,
    List.getD_eq_getElem?_getD]

theorem wsOk_le_total (ws : List WWord) (h : WsOk ws) (k : Nat)
    (hk : k < ws.length) :
    (ws.getD k default).endT ≤ (ws.getLastD default).endT := by
  rw [getLastD_eq_getD]
  by_cases hk2 : k = ws.length - 1
  · rw [hk2]
  · have hk3 : k + (ws.length - 1 - k - 1) + 1 = ws.length - 1 := by omega
    have h1 := wsOk_chain ws h (ws.length - 1 - k - 1) k (by omega)
    rw [hk3] at h1
    have h2 := (wsOk_start_le_end ws h (ws.length - 1) (by omega)).2
    linarith

theorem gapOk_sent_append (total P : ℚ) : ∀ (sent rest : List AToken),
    (∀ u ∈ sent, u.start = -1 ∧ u.endT = -1) → GapOk total P rest →
    GapOk total P (sent ++ rest) := by
  intro sent
  induction sent with
  | nil => intro rest h1 h2; exact h2
  | cons u us ih =>
    intro rest h1 h2
    exact Or.inl ⟨(h1 u (by simp)).1, (h1 u (by simp)).2,
      ih rest (fun v hv => h1 v (by simp [hv])) h2⟩

/-- The alignment walk produces a chronologically well-formed token list:
sentinel tokens and real tokens whose timings come from later and later
whisper words. -/
theorem alignWalk_gapOk (ws : List WWord) (os : List (List Char))
    (hws : WsOk ws) :
    ∀ (n oi wi : Nat) (prevEnd : ℚ), os.length - oi ≤ n →
      (∀ k, wi ≤ k → k < ws.length → prevEnd ≤ (ws.getD k default).start) →
      prevEnd ≤ (ws.getLastD default).endT →
      GapOk (ws.getLastD default).endT prevEnd (alignWalk ws os oi wi) := by
  intro n
  induction n with
  | zero =>
    intro oi wi prevEnd hn hstarts htot
    have hlt : ¬ oi < os.length := by omega
    rw [alignWalk_eq, if_neg hlt]
    exact htot
  | succ n ih =>
    intro oi wi prevEnd hn hstarts htot
    by_cases hlt : oi < os.length
    · rw [alignWalk_eq, if_pos hlt]
      dsimp only
      unfold alignStep
      dsimp only
      split
      next hwi =>
        split
        next hhit =>
          refine Or.inr ⟨wsOk_start_le_end ws hws wi hwi,
            hstarts wi le_rfl hwi, ?_⟩
          apply ih (oi + 1) (wi + 1) _ (by omega)
          · intro k hk1 hk2
            have hidx : wi + (k - wi - 1) + 1 = k := by omega
            have hc := wsOk_chain ws hws (k - wi - 1) wi (by omega)
            rw [hidx] at hc
            exact hc
          · exact wsOk_le_total ws hws wi hwi
        next hmiss =>
          split
          next la heq =>
            obtain ⟨hla1, hla2, hla3, hla4⟩ := findLookahead_some heq
            dsimp only
            refine Or.inr ⟨wsOk_start_le_end ws hws (wi + la) hla3,
              hstarts (wi + la) (by omega) hla3, ?_⟩
            apply ih (oi + 1) (wi + la + 1) _ (by omega)
            · intro k hk1 hk2
              have hidx : (wi + la) + (k - (wi + la) - 1) + 1 = k := by omega
              have hc := wsOk_chain ws hws (k - (wi + la) - 1) (wi + la) (by omega)
              rw [hidx] at hc
              exact hc
            · exact wsOk_le_total ws hws (wi + la) hla3
          next =>
            split
            next la heq =>
              obtain ⟨hla1, hla2, hla3, hla4⟩ := findLookahead_some heq
              apply gapOk_sent_append
              · intro u hu
                obtain ⟨x, hx1, hx2⟩ := List.mem_map.mp hu
                rw [← hx2]
                exact ⟨rfl, rfl⟩
              · exact ih (oi + la) wi prevEnd (by omega) hstarts htot
            next =>
              exact Or.inl ⟨rfl, rfl, ih (oi + 1) wi prevEnd (by omega)
                hstarts htot⟩
      next hwi =>
        exact Or.inl ⟨rfl, rfl, ih (oi + 1) wi prevEnd (by omega)
          hstarts htot⟩
    · rw [alignWalk_eq, if_neg hlt]
      exact htot

/-- The top-level instance: the walk output is well-formed from `prevEnd = 0`
up to the last whisper word's end time. -/
theorem alignWalk_gapOk0 (ws : List WWord) (os : List (List Char))
    (hws : WsOk ws) (hne : ws ≠ []) :
    GapOk (ws.getLastD default).endT 0 (alignWalk ws os 0 0) := by
  have hlen : 0 < ws.length := List.length_pos.mpr hne
  have htot : (0:ℚ) ≤ (ws.getLastD default).endT := by
    rw [getLastD_eq_getD]
    have h1 := wsOk_start_le_end ws hws (ws.length - 1) (by omega)
    linarith [h1.1, h1.2]
  exact alignWalk_gapOk ws os hws os.length 0 0 0 (by omega)
    (fun k _ hk => (wsOk_start_le_end ws hws k hk).1) htot

theorem punctStep_oi_lt (batchWords : List WWord) (punct : List (List Char))
    (oi pi : Nat) : oi < (punctStep batchWords punct oi pi).oi := by
  unfold punctStep
  try dsimp only
  repeat' split
  all_goals try dsimp only
  all_goals try omega
  all_goals
    rename_i la heq
    have h := findLookahead_some heq
    omega

theorem punctWalkGo_stable (batchWords : List WWord) (punct : List (List Char)) :
    ∀ f1 f2 oi pi, batchWords.length - oi ≤ f1 → batchWords.length - oi ≤ f2 →
      punctWalkGo batchWords punct f1 oi pi = punctWalkGo batchWords punct f2 oi pi := by
  intro f1
  induction f1 with
  | zero =>
    intro f2 oi pi h1 h2
    have hlt : ¬ oi < batchWords.length := by omega
    cases f2 with
    | zero => rfl
    | succ b => simp [punctWalkGo, hlt]
  | succ a ih =>
    intro f2 oi pi h1 h2
    by_cases hlt : oi < batchWords.length
    · cases f2 with
      | zero => omega
      | succ b =>
        have hs := punctStep_oi_lt batchWords punct oi pi
        simp only [punctWalkGo, hlt, if_true]
        rw [ih b _ _ (by omega) (by omega)]
    · cases f2 with
      | zero => simp [punctWalkGo, hlt]
      | succ b => simp [punctWalkGo, hlt]

theorem punctWalkGo_succ (batchWords : List WWord) (punct : List (List Char))
    (fuel oi pi : Nat) :
    punctWalkGo batchWords punct (fuel + 1) oi pi =
      if oi < batchWords.length then
        ((punctStep batchWords punct oi pi).toks ++
            (punctWalkGo batchWords punct fuel (punctStep batchWords punct oi pi).oi
              (punctStep batchWords punct oi pi).pi).1,
          (punctStep batchWords punct oi pi).matchedInc +
            (punctWalkGo batchWords punct fuel (punctStep batchWords punct oi pi).oi
              (punctStep batchWords punct oi pi).pi).2)
      else ([], 0) := rfl

/-- The loop-shaped unfolding of `punctWalk`. -/
theorem punctWalk_eq (batchWords : List WWord) (punct : List (List Char))
    (oi pi : Nat) :
    punctWalk batchWords punct oi pi =
      if oi < batchWords.length then
        let s := punctStep batchWords punct oi pi
        let rest := punctWalk batchWords punct s.oi s.pi
        (s.toks ++ rest.1, s.matchedInc + rest.2)
      else ([], 0) := by
  by_cases hlt : oi < batchWords.length
  · have h1 : batchWords.length - oi = (batchWords.length - oi - 1) + 1 := by omega
    have hs := punctStep_oi_lt batchWords punct oi pi
    rw [if_pos hlt]
    show punctWalkGo batchWords punct (batchWords.length - oi) oi pi = _
    rw [h1, punctWalkGo_succ, if_pos hlt]
    rw [punctWalkGo_stable batchWords punct (batchWords.length - oi - 1)
      (batchWords.length - (punctStep batchWords punct oi pi).oi) _ _
      (by omega) (by omega)]
    rfl
  · rw [if_neg hlt]
    show punctWalkGo batchWords punct (batchWords.length - oi) oi pi = ([], 0)
    cases h : batchWords.length - oi with
    | zero => rfl
    | succ b => rw [punctWalkGo_succ, if_neg hlt]

example : editDistance "kitten".toList "sitting".toList = 3 := by decide

theorem getD_map_range {α : Type _} (n k : Nat) (f : Nat → α) (d : α)
    (h : k < n) : ((List.range n).map f).getD k d = f k := by
  rw [List.getD_eq_getElem?_getD, List.getElem?_map, List.getElem?_range h]
  rfl

theorem punctStep_oi_le (batchWords : List WWord) (punct : List (List Char))
    (oi pi : Nat) (h : oi < batchWords.length) :
    (punctStep batchWords punct oi pi).oi ≤ batchWords.length := by
  unfold punctStep
  try dsimp only
  repeat' split
  all_goals try dsimp only
  all_goals try omega
  all_goals
    rename_i la heq
    have hla := findLookahead_some heq
    omega

theorem laHit_cases {cand base : List Char} (h : laHit cand base = true) :
    cand = base ∨ isFuzzyMatch cand base = true := by
  unfold laHit at h
  rcases Bool.or_eq_true _ _ |>.mp h with h | h
  · exact Or.inl (of_decide_eq_true h)
  · exact Or.inr h

theorem punctStep_spec (batchWords : List WWord) (punct : List (List Char))
    (oi pi : Nat) (h : oi < batchWords.length) :
    (punctStep batchWords punct oi pi).toks.length =
        (punctStep batchWords punct oi pi).oi - oi ∧
      ∀ k, k < (punctStep batchWords punct oi pi).toks.length →
        punctOutcome punct (batchWords.getD (oi + k) default)
          ((punctStep batchWords punct oi pi).toks.getD k default) := by
  unfold punctStep
  try dsimp only
  split
  case isTrue hpi =>
    split
    case isTrue hhit =>
      refine ⟨by simp only [List.length_singleton]; omega, ?_⟩
      intro k hk
      simp only [List.length_singleton] at hk
      interval_cases k
      simp only [List.getD_cons_zero]
      refine Or.inr ⟨rfl, rfl, pi, hpi, rfl, ?_⟩
      rcases laHit_cases hhit with h1 | h1
      · exact Or.inl h1
      · exact Or.inr (Or.inl h1)
    case isFalse hmiss =>
      split
      case h_1 la heq =>
        obtain ⟨h1, h2, h3, h4⟩ := findLookahead_some heq
        refine ⟨by simp only [List.length_singleton]; omega, ?_⟩
        intro k hk
        simp only [List.length_singleton] at hk
        interval_cases k
        simp only [List.getD_cons_zero]
        refine Or.inr ⟨rfl, rfl, pi + la, h3, rfl, ?_⟩
        rcases laHit_cases h4 with h5 | h5
        · exact Or.inl h5.symm
        · exact Or.inr (Or.inr h5)
      case h_2 =>
        split
        case h_1 la heq =>
          obtain ⟨h1, h2, h3, h4⟩ := findLookahead_some heq
          refine ⟨by simp, ?_⟩
          intro k hk
          simp only [List.length_map, List.length_range] at hk
          rw [getD_map_range la k _ default hk]
          exact Or.inl rfl
        case h_2 =>
          refine ⟨by simp only [List.length_singleton]; omega, ?_⟩
          intro k hk
          simp only [List.length_singleton] at hk
          interval_cases k
          exact Or.inl rfl
  case isFalse hpi =>
    refine ⟨by simp only [List.length_singleton]; omega, ?_⟩
    intro k hk
    simp only [List.length_singleton] at hk
    interval_cases k
    exact Or.inl rfl

theorem punctWalk_length_outcome (batchWords : List WWord)
    (punct : List (List Char)) :
    ∀ n oi pi, batchWords.length - oi ≤ n →
      (punctWalk batchWords punct oi pi).1.length = batchWords.length - oi ∧
      ∀ k, k < batchWords.length - oi →
        punctOutcome punct (batchWords.getD (oi + k) default)
          ((punctWalk batchWords punct oi pi).1.getD k default) := by
  intro n
  induction n with
  | zero =>
    intro oi pi h
    have hlt : ¬ oi < batchWords.length := by omega
    rw [punctWalk_eq, if_neg hlt]
    exact ⟨by simp; omega, fun k hk => absurd hk (by omega)⟩
  | succ n ih =>
    intro oi pi h
    by_cases hlt : oi < batchWords.length
    · rw [punctWalk_eq, if_pos hlt]
      dsimp only
      obtain ⟨hlen, htoks⟩ := punctStep_spec batchWords punct oi pi hlt
      have hle := punctStep_oi_le batchWords punct oi pi hlt
      have hprog := punctStep_oi_lt batchWords punct oi pi
      obtain ⟨ihlen, ihout⟩ := ih (punctStep batchWords punct oi pi).oi
        (punctStep batchWords punct oi pi).pi (by omega)
      constructor
      · rw [List.length_append, hlen, ihlen]; omega
      · intro k hk
        by_cases hk2 : k < (punctStep batchWords punct oi pi).toks.length
        · rw [List.getD_append _ _ _ _ hk2]
          exact htoks k hk2
        · push_neg at hk2
          rw [List.getD_append_right _ _ _ _ hk2]
          have hidx : (punctStep batchWords punct oi pi).oi +
              (k - (punctStep batchWords punct oi pi).toks.length) = oi + k := by
            omega
          have := ihout (k - (punctStep batchWords punct oi pi).toks.length)
            (by omega)
          rwa [hidx] at this
    · rw [punctWalk_eq, if_neg hlt]
      exact ⟨by simp; omega, fun k hk => absurd hk (by omega)⟩

/-- C2: for every source word list and every corrected batch, the per-batch
two-pointer walk of `addPunctuation` emits exactly one output token per
source word (output length = input length), and each source word's outcome is
either its text replaced by a matched corrected token (timing kept) or the
original token kept verbatim — no source token is dropped. -/
theorem claim_C2_one_token_per_source :
    ∀ (batchWords : List WWord) (punct : List (List Char)),
      (punctWalk batchWords punct 0 0).1.length = batchWords.length ∧
      ∀ k, k < batchWords.length →
        punctOutcome punct (batchWords.getD k default)
          ((punctWalk batchWords punct 0 0).1.getD k default) := by
  intro batchWords punct
  obtain ⟨h1, h2⟩ := punctWalk_length_outcome batchWords punct
    batchWords.length 0 0 (by omega)
  refine ⟨by simpa using h1, ?_⟩
  intro k hk
  simpa using h2 k (by omega)

/-- Witness for C2 at a concrete input. -/
theorem claim_C2_one_token_per_source_witness :
    (punctWalk [⟨"привет".toList, 0, 1⟩, ⟨"как".toList, 1, 2⟩]
        ["Привет,".toList, "как".toList] 0 0).1.length = 2 ∧
    punctOutcome ["Привет,".toList, "как".toList]
      (⟨"привет".toList, 0, 1⟩)
      ((punctWalk [⟨"привет".toList, 0, 1⟩, ⟨"как".toList, 1, 2⟩]
          ["Привет,".toList, "как".toList] 0 0).1.getD 0 default) :=
  ⟨(claim_C2_one_token_per_source _ _).1,
   (claim_C2_one_token_per_source _ _).2 0 (by decide)⟩

theorem alignStep_oi_le (ws : List WWord) (os : List (List Char))
    (oi wi : Nat) (h : oi < os.length) :
    (alignStep ws os oi wi).oi ≤ os.length := by
  unfold alignStep
  try dsimp only
  repeat' split
  all_goals try dsimp only
  all_goals try omega
  all_goals
    rename_i la heq
    have hla := findLookahead_some heq
    omega

theorem alignStep_spec (ws : List WWord) (os : List (List Char))
    (oi wi : Nat) (h : oi < os.length) :
    (alignStep ws os oi wi).toks.length = (alignStep ws os oi wi).oi - oi ∧
      ∀ k, k < (alignStep ws os oi wi).toks.length →
        ((alignStep ws os oi wi).toks.getD k default).word =
          leadSpace (oi + k) ++ os.getD (oi + k) [] := by
  unfold alignStep
  try dsimp only
  split
  case isTrue hwi =>
    split
    case isTrue hhit =>
      refine ⟨by simp only [List.length_singleton]; omega, ?_⟩
      intro k hk
      simp only [List.length_singleton] at hk
      interval_cases k
      simp
    case isFalse hmiss =>
      split
      case h_1 la heq =>
        refine ⟨by simp only [List.length_singleton]; omega, ?_⟩
        intro k hk
        simp only [List.length_singleton] at hk
        interval_cases k
        simp
      case h_2 =>
        split
        case h_1 la heq =>
          refine ⟨by simp, ?_⟩
          intro k hk
          simp only [List.length_map, List.length_range] at hk
          rw [getD_map_range la k _ default hk]
        case h_2 =>
          refine ⟨by simp only [List.length_singleton]; omega, ?_⟩
          intro k hk
          simp only [List.length_singleton] at hk
          interval_cases k
          simp
  case isFalse hwi =>
    refine ⟨by simp only [List.length_singleton]; omega, ?_⟩
    intro k hk
    simp only [List.length_singleton] at hk
    interval_cases k
    simp

theorem alignWalk_words (ws : List WWord) (os : List (List Char)) :
    ∀ n oi wi, os.length - oi ≤ n →
      (alignWalk ws os oi wi).length = os.length - oi ∧
      ∀ k, k < os.length - oi →
        ((alignWalk ws os oi wi).getD k default).word =
          leadSpace (oi + k) ++ os.getD (oi + k) [] := by
  intro n
  induction n with
  | zero =>
    intro oi wi h
    have hlt : ¬ oi < os.length := by omega
    rw [alignWalk_eq, if_neg hlt]
    exact ⟨by simp; omega, fun k hk => absurd hk (by omega)⟩
  | succ n ih =>
    intro oi wi h
    by_cases hlt : oi < os.length
    · rw [alignWalk_eq, if_pos hlt]
      dsimp only
      obtain ⟨hlen, htoks⟩ := alignStep_spec ws os oi wi hlt
      have hle := alignStep_oi_le ws os oi wi hlt
      have hprog := alignStep_oi_lt ws os oi wi
      obtain ⟨ihlen, ihout⟩ := ih (alignStep ws os oi wi).oi
        (alignStep ws os oi wi).wi (by omega)
      constructor
      · rw [List.length_append, hlen, ihlen]; omega
      · intro k hk
        by_cases hk2 : k < (alignStep ws os oi wi).toks.length
        · rw [List.getD_append _ _ _ _ hk2]
          exact htoks k hk2
        · push_neg at hk2
          rw [List.getD_append_right _ _ _ _ hk2]
          have hidx : (alignStep ws os oi wi).oi +
              (k - (alignStep ws os oi wi).toks.length) = oi + k := by omega
          have := ihout (k - (alignStep ws os oi wi).toks.length) (by omega)
          rwa [hidx] at this
    · rw [alignWalk_eq, if_neg hlt]
      exact ⟨by simp; omega, fun k hk => absurd hk (by omega)⟩

theorem interpFill_length (prevEnd step : ℚ) (i g : Nat) :
    ∀ (r : List AToken) (j : Nat), (interpFill prevEnd step i g r j).length = r.length := by
  intro r
  induction r with
  | nil => intro j; rfl
  | cons t ts ih => intro j; simp [interpFill, ih]

theorem interpFill_word (prevEnd step : ℚ) (i g : Nat) :
    ∀ (r : List AToken) (j k : Nat),
      ((interpFill prevEnd step i g r j).getD k default).word =
        (r.getD k default).word := by
  intro r
  induction r with
  | nil => intro j k; rfl
  | cons t ts ih =>
    intro j k
    cases k with
    | zero =>
      simp only [interpFill, List.getD_cons_zero]
      split <;> rfl
    | succ k => simp only [interpFill, List.getD_cons_succ, ih]

theorem interpOne_length (total : ℚ) (r : List AToken) (i : Nat) :
    (interpOne total r i).length = r.length := by
  unfold interpOne
  apply interpFill_length

theorem interpOne_word (total : ℚ) (r : List AToken) (i k : Nat) :
    ((interpOne total r i).getD k default).word = (r.getD k default).word := by
  unfold interpOne
  apply interpFill_word

theorem interpGo_length (total : ℚ) :
    ∀ (is : List Nat) (r : List AToken), (interpGo total r is).length = r.length := by
  intro is
  induction is with
  | nil => intro r; rfl
  | cons i is ih =>
    intro r
    simp only [interpGo, ih]
    split <;> simp [interpOne_length]

theorem interpGo_word (total : ℚ) :
    ∀ (is : List Nat) (r : List AToken) (k : Nat),
      ((interpGo total r is).getD k default).word = (r.getD k default).word := by
  intro is
  induction is with
  | nil => intro r k; rfl
  | cons i is ih =>
    intro r k
    simp only [interpGo, ih]
    split
    · rw [interpOne_word]
    · rfl

theorem interpolate_length (total : ℚ) (r : List AToken) :
    (interpolate total r).length = r.length := interpGo_length total _ r

theorem interpolate_word (total : ℚ) (r : List AToken) (k : Nat) :
    ((interpolate total r).getD k default).word = (r.getD k default).word :=
  interpGo_word total _ r k

theorem zeroTokGo_length : ∀ (os : List (List Char)) (i : Nat),
    (zeroTokGo os i).length = os.length := by
  intro os
  induction os with
  | nil => intro i; rfl
  | cons w rest ih => intro i; simp [zeroTokGo, ih]

theorem zeroTokGo_getD : ∀ (os : List (List Char)) (i k : Nat), k < os.length →
    (zeroTokGo os i).getD k default =
      ⟨leadSpace (i + k) ++ os.getD k [], 0, 0⟩ := by
  intro os
  induction os with
  | nil => intro i k hk; simp at hk
  | cons w rest ih =>
    intro i k hk
    cases k with
    | zero => simp [zeroTokGo]
    | succ k =>
      simp only [zeroTokGo, List.getD_cons_succ]
      rw [ih (i + 1) k (by simpa using hk)]
      have : i + 1 + k = i + (k + 1) := by omega
      rw [this]

/-- C1: for every whisper word list and every original word list,
`alignWhisperToOriginal` returns exactly one token per original word —
output length equals the original list's length — and the `i`-th output token
carries the `i`-th original word's text, prefixed by a single space for every
`i > 0`: the authoritative sequence is reproduced in order with no token
dropped, duplicated, or reordered. -/
theorem claim_C1_target_text_preserved :
    ∀ (ws : List WWord) (os : List (List Char)),
      (alignWhisperToOriginal ws os).length = os.length ∧
      ∀ i, i < os.length →
        ((alignWhisperToOriginal ws os).getD i default).word =
          (if 0 < i then [' '] else []) ++ os.getD i [] := by
  intro ws os
  unfold alignWhisperToOriginal
  split
  case isTrue h =>
    refine ⟨zeroTokGo_length os 0, ?_⟩
    intro i hi
    rw [zeroTokGo_getD os 0 i hi]
    simp [leadSpace]
  case isFalse h =>
    obtain ⟨hlen, hword⟩ := alignWalk_words ws os os.length 0 0 (by omega)
    constructor
    · rw [interpolate_length, hlen]; omega
    · intro i hi
      rw [interpolate_word]
      have := hword i (by omega)
      simpa [leadSpace] using this

/-- Witness for C1 at a concrete input. -/
theorem claim_C1_target_text_preserved_witness :
    (alignWhisperToOriginal [⟨"привет".toList, 0, 1⟩]
        ["привет".toList, "мир".toList]).length = 2 ∧
    ((alignWhisperToOriginal [⟨"привет".toList, 0, 1⟩]
        ["привет".toList, "мир".toList]).getD 1 default).word =
      (if 0 < 1 then [' '] else []) ++ "мир".toList :=
  ⟨(claim_C1_target_text_preserved _ _).1,
   (claim_C1_target_text_preserved _ _).2 1 (by decide)⟩

/-- C8: for source `["привет","как","дела"]` timed `[0-1,1-2,2-3]` and
corrected target `["Привет", ",", "как", "дела", "?"]`, the `addPunctuation`
walk skips the two extra target tokens and emits exactly 3 tokens carrying
the original timestamps (matched count 3), with the corrected casing on the
matched word and no separate unmatched punctuation tokens. -/
theorem claim_C8_skip_extra_target_tokens :
    punctWalk
      [⟨"привет".toList, 0, 1⟩, ⟨"как".toList, 1, 2⟩, ⟨"дела".toList, 2, 3⟩]
      ["Привет".toList, ",".toList, "как".toList, "дела".toList, "?".toList]
      0 0 =
    ([⟨"Привет".toList, 0, 1⟩, ⟨"как".toList, 1, 2⟩, ⟨"дела".toList, 2, 3⟩],
      3) := by
  decide

/-- Counterexample to C9 as stated: with an empty source, the second output
token's text is `" мир"` (the walk prefixes a single space to every word
after the first), not the bare `"мир"` the claim's literal output lists. -/
theorem claim_C9_empty_source_counterexample :
    ((alignWhisperToOriginal [] ["привет".toList, "мир".toList]).getD 1
        default).word ≠ "мир".toList := by
  decide

/-- C9 (amended): if the whisper word list is empty, `alignWhisperToOriginal`
returns one token per target word with `start = end = 0`, each word after the
first prefixed by a single space; for `target = ["привет","мир"]` the output
is `[{«привет»,0,0}, {« мир»,0,0}]`.  (The code's output tokens carry no
`matched` field at all; the spec-level `matched:false` has no counterpart in
the returned objects.) -/
theorem claim_C9_empty_source_zero_timestamps :
    (∀ (os : List (List Char)),
      (alignWhisperToOriginal [] os).length = os.length ∧
      ∀ i, i < os.length →
        (alignWhisperToOriginal [] os).getD i default =
          ⟨(if 0 < i then [' '] else []) ++ os.getD i [], 0, 0⟩) ∧
    alignWhisperToOriginal [] ["привет".toList, "мир".toList] =
      [⟨"привет".toList, 0, 0⟩, ⟨" мир".toList, 0, 0⟩] := by
  constructor
  · intro os
    have hbranch : alignWhisperToOriginal [] os = zeroTokGo os 0 := by
      unfold alignWhisperToOriginal
      rw [if_pos]
      simp
    rw [hbranch]
    refine ⟨zeroTokGo_length os 0, ?_⟩
    intro i hi
    rw [zeroTokGo_getD os 0 i hi]
    simp [leadSpace]
  · decide

/-- Witness for C9 (amended) at a concrete input. -/
theorem claim_C9_empty_source_zero_timestamps_witness :
    (alignWhisperToOriginal [] ["привет".toList, "мир".toList]).getD 1 default =
      ⟨(if 0 < 1 then [' '] else []) ++ "мир".toList, 0, 0⟩ :=
  (claim_C9_empty_source_zero_timestamps.1 _).2 1 (by decide)

theorem punctStep_match (batchWords : List WWord) (punct : List (List Char))
    (oi pi : Nat) (hpi : pi < punct.length)
    (hhit : laHit (normBase (batchWords.getD oi default).word)
      (normBase (punct.getD pi [])) = true) :
    punctStep batchWords punct oi pi =
      ⟨[{ batchWords.getD oi default with
          word := (batchWords.getD oi default).word.takeWhile isSpaceChar ++
            punct.getD pi [] }],
        oi + 1, pi + 1, 1⟩ := by
  unfold punctStep
  rw [if_pos hpi, if_pos hhit]

/-- Counterexample to C7 as stated: source `[{«привет»,0,1}]` and corrected
batch `["Привет"]` agree after normalization, yet the output token's text is
the corrected `"Привет"`, not the source text `"привет"`. -/
theorem claim_C7_idempotence_counterexample :
    normBase "Привет".toList = normBase "привет".toList ∧
    ((punctWalk [⟨"привет".toList, 0, 1⟩] ["Привет".toList] 0 0).1.getD 0
        default).word ≠ "привет".toList := by
  decide

theorem punctWalk_lockstep (batchWords : List WWord) (punct : List (List Char))
    (hlen : punct.length = batchWords.length)
    (hnorm : ∀ i, i < batchWords.length →
      normBase (punct.getD i []) = normBase (batchWords.getD i default).word) :
    ∀ n oi, batchWords.length - oi ≤ n →
      (punctWalk batchWords punct oi oi).2 = batchWords.length - oi ∧
      ∀ k, k < batchWords.length - oi →
        (punctWalk batchWords punct oi oi).1.getD k default =
          { batchWords.getD (oi + k) default with
              word := (batchWords.getD (oi + k) default).word.takeWhile
                  isSpaceChar ++ punct.getD (oi + k) [] } := by
  intro n
  induction n with
  | zero =>
    intro oi h
    have hlt : ¬ oi < batchWords.length := by omega
    rw [punctWalk_eq, if_neg hlt]
    exact ⟨by simp; omega, fun k hk => absurd hk (by omega)⟩
  | succ n ih =>
    intro oi h
    by_cases hlt : oi < batchWords.length
    · have hhit : laHit (normBase (batchWords.getD oi default).word)
          (normBase (punct.getD oi [])) = true := by
        unfold laHit
        rw [hnorm oi hlt]
        simp
      have hstep := punctStep_match batchWords punct oi oi (by omega) hhit
      rw [punctWalk_eq, if_pos hlt, hstep]
      dsimp only
      obtain ⟨ihcnt, ihtok⟩ := ih (oi + 1) (by omega)
      constructor
      · rw [ihcnt]; omega
      · intro k hk
        cases k with
        | zero => simp
        | succ k =>
          simp only [List.singleton_append, List.getD_cons_succ]
          have := ihtok k (by omega)
          have hidx : oi + 1 + k = oi + (k + 1) := by omega
          rwa [hidx] at this
    · rw [punctWalk_eq, if_neg hlt]
      exact ⟨by simp; omega, fun k hk => absurd hk (by omega)⟩

/-- C7 (amended): if the corrected batch's tokens equal the source words
after normalization (same order, same count), the `addPunctuation` walk
matches every token in lockstep: every output token keeps its source timing,
its text is the corrected token (prefixed by the source word's leading
whitespace), and the match counter equals the full length.  (As stated the
claim is false: the output *text* comes from the corrected token, not the
source — see the counterexample.) -/
theorem claim_C7_idempotence_lockstep :
    ∀ (batchWords : List WWord) (punct : List (List Char)),
      punct.length = batchWords.length →
      (∀ i, i < batchWords.length →
        normBase (punct.getD i []) = normBase (batchWords.getD i default).word) →
      (punctWalk batchWords punct 0 0).2 = batchWords.length ∧
      ∀ i, i < batchWords.length →
        (punctWalk batchWords punct 0 0).1.getD i default =
          { batchWords.getD i default with
              word := (batchWords.getD i default).word.takeWhile isSpaceChar ++
                punct.getD i [] } := by
  intro batchWords punct hlen hnorm
  obtain ⟨h1, h2⟩ := punctWalk_lockstep batchWords punct hlen hnorm
    batchWords.length 0 (by omega)
  refine ⟨by simpa using h1, ?_⟩
  intro i hi
  simpa using h2 i (by omega)

/-- Witness for C7 (amended) at a concrete input. -/
theorem claim_C7_idempotence_lockstep_witness :
    (punctWalk [⟨"привет".toList, 0, 1⟩] ["Привет!".toList] 0 0).2 = 1 ∧
    (punctWalk [⟨"привет".toList, 0, 1⟩] ["Привет!".toList] 0 0).1.getD 0
        default =
      { (⟨"привет".toList, 0, 1⟩ : WWord) with
          word := "привет".toList.takeWhile isSpaceChar ++ "Привет!".toList } :=
  ⟨(claim_C7_idempotence_lockstep _ _ (by decide)
      (fun i hi => by
        have h0 : i = 0 := by simp at hi; omega
        subst h0; decide)).1,
   (claim_C7_idempotence_lockstep _ _ (by decide)
      (fun i hi => by
        have h0 : i = 0 := by simp at hi; omega
        subst h0; decide)).2 0 (by decide)⟩

/-- C5: `isFuzzyMatch(a, b)` is false whenever either string has fewer than 4
characters, and otherwise is true exactly when
`editDistance(a, b) ≤ max(2, ⌊max(len(a), len(b)) · 0.3⌋)` (the floor equals
`3·maxLen/10` in natural division); in particular it is true for two
6-character strings at distance 1 and false for two 4-character strings at
distance 3. -/
theorem claim_C5_fuzzy_threshold :
    (∀ a b : List Char, a.length < 4 ∨ b.length < 4 → isFuzzyMatch a b = false) ∧
    (∀ a b : List Char, 4 ≤ a.length → 4 ≤ b.length →
      (isFuzzyMatch a b = true ↔
        editDistance a b ≤ max 2 (3 * max a.length b.length / 10))) ∧
    (∀ a b : List Char, a.length = 6 → b.length = 6 → editDistance a b = 1 →
      isFuzzyMatch a b = true) ∧
    (∀ a b : List Char, a.length = 4 → b.length = 4 → editDistance a b = 3 →
      isFuzzyMatch a b = false) := by
  have hmain : ∀ a b : List Char, 4 ≤ a.length → 4 ≤ b.length →
      (isFuzzyMatch a b = true ↔
        editDistance a b ≤ max 2 (3 * max a.length b.length / 10)) := by
    intro a b ha hb
    unfold isFuzzyMatch
    rw [if_neg (by simp; omega)]
    simp
  refine ⟨?_, hmain, ?_, ?_⟩
  · intro a b h
    unfold isFuzzyMatch
    rw [if_pos]
    simp
    omega
  · intro a b ha hb hd
    rw [hmain a b (by omega) (by omega), hd, ha, hb]
    decide
  · intro a b ha hb hd
    have h := hmain a b (by omega) (by omega)
    rw [ha, hb, hd] at h
    cases hF : isFuzzyMatch a b with
    | false => rfl
    | true => exact absurd (h.mp hF) (by decide)

/-- Witness for C5 at concrete strings. -/
theorem claim_C5_fuzzy_threshold_witness :
    isFuzzyMatch "ab".toList "abcd".toList = false ∧
    isFuzzyMatch "abcdef".toList "abcdeg".toList = true ∧
    isFuzzyMatch "aaaa".toList "abbb".toList = false :=
  ⟨claim_C5_fuzzy_threshold.1 _ _ (Or.inl (by decide)),
   claim_C5_fuzzy_threshold.2.2.1 _ _ (by decide) (by decide) (by decide),
   claim_C5_fuzzy_threshold.2.2.2 _ _ (by decide) (by decide) (by decide)⟩

/-- C10: both two-pointer walks terminate on every input.  Every iteration of
`alignWhisperToOriginal`'s main loop and of `addPunctuation`'s per-batch loop
strictly advances the authoritative-side index `oi` (also in the branches
where the other pointer stays put), so a fuel of `length - oi` — the number of
remaining authoritative tokens — computes each walk completely: the walks are
total functions by well-founded descent on that measure. -/
theorem claim_C10_walks_terminate :
    (∀ (ws : List WWord) (os : List (List Char)) (oi wi : Nat),
      oi < (alignStep ws os oi wi).oi) ∧
    (∀ (batchWords : List WWord) (punct : List (List Char)) (oi pi : Nat),
      oi < (punctStep batchWords punct oi pi).oi) ∧
    (∀ (ws : List WWord) (os : List (List Char)) (fuel oi wi : Nat),
      os.length - oi ≤ fuel →
      alignWalkGo ws os fuel oi wi = alignWalk ws os oi wi) ∧
    (∀ (batchWords : List WWord) (punct : List (List Char)) (fuel oi pi : Nat),
      batchWords.length - oi ≤ fuel →
      punctWalkGo batchWords punct fuel oi pi = punctWalk batchWords punct oi pi) := by
  refine ⟨alignStep_oi_lt, punctStep_oi_lt, ?_, ?_⟩
  · intro ws os fuel oi wi h
    exact alignWalkGo_stable ws os fuel (os.length - oi) oi wi h (by omega)
  · intro batchWords punct fuel oi pi h
    exact punctWalkGo_stable batchWords punct fuel (batchWords.length - oi) oi pi h (by omega)

/-- Witness for C10 at a concrete input. -/
theorem claim_C10_walks_terminate_witness :
    alignWalkGo [⟨"мир".toList, 0, 1⟩] ["мир".toList] 1 0 0 =
      alignWalk [⟨"мир".toList, 0, 1⟩] ["мир".toList] 0 0 ∧
    punctWalkGo [⟨"мир".toList, 0, 1⟩] ["мир".toList] 1 0 0 =
      punctWalk [⟨"мир".toList, 0, 1⟩] ["мир".toList] 0 0 :=
  ⟨claim_C10_walks_terminate.2.2.1 _ _ 1 0 0 (by decide),
   claim_C10_walks_terminate.2.2.2 _ _ 1 0 0 (by decide)⟩

example :
    punctWalk
      [⟨"привет".toList, 0, 1⟩, ⟨"как".toList, 1, 2⟩, ⟨"дела".toList, 2, 3⟩]
      ["Привет".toList, ",".toList, "как".toList, "дела".toList, "?".toList]
      0 0 =
    ([⟨"Привет".toList, 0, 1⟩, ⟨"как".toList, 1, 2⟩, ⟨"дела".toList, 2, 3⟩], 3) := by
  decide

example :
    alignWhisperToOriginal [] ["привет".toList, "мир".toList] =
      [⟨"привет".toList, 0, 0⟩, ⟨" мир".toList, 0, 0⟩] := by
  decide

example :
    interpolate 14
      [⟨"a".toList, 19/2, 10⟩, ⟨"b".toList, -1, -1⟩, ⟨"c".toList, -1, -1⟩,
        ⟨"d".toList, 13, 14⟩] =
      [⟨"a".toList, 19/2, 10⟩, ⟨"b".toList, 11, 59/5⟩, ⟨"c".toList, 12, 64/5⟩,
        ⟨"d".toList, 13, 14⟩] := by
  norm_num [interpolate, interpGo, interpOne, backScan, backScanGo, fwdScan,
    fwdScanGo, interpFill, List.range_succ]

example :
    alignWhisperToOriginal
      [⟨"превет".toList, 0, 1⟩, ⟨"мир".toList, 2, 3⟩]
      ["Привет,".toList, "дорогой".toList, "мир!".toList] =
      [⟨"Привет,".toList, 0, 1⟩, ⟨" дорогой".toList, 3/2, 19/10⟩,
        ⟨" мир!".toList, 2, 3⟩] := by
  have hw : alignWalk
      [⟨"превет".toList, 0, 1⟩, ⟨"мир".toList, 2, 3⟩]
      ["Привет,".toList, "дорогой".toList, "мир!".toList] 0 0 =
      [⟨"Привет,".toList, 0, 1⟩, ⟨" дорогой".toList, -1, -1⟩,
        ⟨" мир!".toList, 2, 3⟩] := by decide
  unfold alignWhisperToOriginal
  rw [if_neg (by decide), hw]
  norm_num [interpolate, interpGo, interpOne, backScan, backScanGo, fwdScan,
    fwdScanGo, interpFill, List.range_succ, List.getLastD]

example : editDistance "привет".toList "превет".toList = 1 := by decide

example : normBase "«Привет!»".toList = "привет".toList := by decide

example : isFuzzyMatch "привет".toList "превет".toList = true := by decide

example : isFuzzyMatch "коту".toList "боря".toList = false := by decide

theorem zeroTokGo_mem : ∀ (os : List (List Char)) (i : Nat) (t : AToken),
    t ∈ zeroTokGo os i → t.start = 0 ∧ t.endT = 0 := by
  intro os
  induction os with
  | nil =>
    intro i t ht
    simp only [zeroTokGo] at ht
    exact absurd ht (List.not_mem_nil t)
  | cons w rest ih =>
    intro i t ht
    simp only [zeroTokGo] at ht
    rcases List.mem_cons.mp ht with h | h
    · rw [h]
      exact ⟨rfl, rfl⟩
    · exact ih (i + 1) t h

/-- Counterexample to C3 as stated: the whisper list `[{«мир», −2, −2}]` is
non-empty and each of its words is self-consistent, yet against the original
words `["абв","мир"]` the interpolation assigns the unmatched first token
`start = prevEnd + step·1 = 0 + (−2−0)/2 = −1` — exactly the sentinel value —
so an output token still carries a sentinel timestamp.  (Timestamps are
modeled as exact rationals.) -/
theorem claim_C3_interpolation_counterexample :
    ([⟨"мир".toList, -2, -2⟩] : List WWord) ≠ [] ∧
    ((alignWhisperToOriginal [⟨"мир".toList, -2, -2⟩]
        ["абв".toList, "мир".toList]).getD 0 default).start = -1 := by
  constructor
  · exact List.cons_ne_nil _ _
  · have hw : alignWalk [⟨"мир".toList, -2, -2⟩]
        ["абв".toList, "мир".toList] 0 0 =
        [⟨"абв".toList, -1, -1⟩, ⟨" мир".toList, -2, -2⟩] := by decide
    have hfull : alignWhisperToOriginal [⟨"мир".toList, -2, -2⟩]
        ["абв".toList, "мир".toList] =
        [⟨"абв".toList, -1, -9/5⟩, ⟨" мир".toList, -2, -2⟩] := by
      unfold alignWhisperToOriginal
      rw [if_neg (by decide), hw]
      norm_num [interpolate, interpGo, interpOne, backScan, backScanGo,
        fwdScan, fwdScanGo, interpFill, List.range_succ, List.getLastD]
    rw [hfull]
    rfl

/-- C3 (amended): for chronologically well-formed whisper input with
nonnegative times (`WsOk`), the interpolation pass of
`alignWhisperToOriginal` equals the run-based reference `fillAll`: every
maximal sentinel run of length `g`, bounded by `prevEnd` (end of the nearest
preceding real token, `0` if none) and `nextStart` (start of the nearest
following real token, or the last whisper word's end if none), gets
`start = prevEnd + step·p`, `end = prevEnd + step·(p + 0.8)` for `p = 1..g`
with `step = (nextStart − prevEnd)/(g+1)`; afterwards no output token carries
a sentinel timestamp; and the `prevEnd = 10`, `nextStart = 13`, `g = 2` gap
yields `{11, 11.8}` and `{12, 12.8}`.  Without the nonnegativity hypothesis
the no-sentinel clause fails (see the counterexample). -/
theorem claim_C3_interpolation_runs (ws : List WWord) (os : List (List Char))
    (hws : WsOk ws) (hw : ws ≠ []) :
    alignWhisperToOriginal ws os =
      fillAll (ws.getLastD default).endT 0 (alignWalk ws os 0 0) ∧
    (∀ t ∈ alignWhisperToOriginal ws os, t.start ≠ -1 ∧ t.endT ≠ -1) ∧
    interpolate 14 [⟨"a".toList, 19/2, 10⟩, ⟨"b".toList, -1, -1⟩,
        ⟨"c".toList, -1, -1⟩, ⟨"d".toList, 13, 14⟩] =
      [⟨"a".toList, 19/2, 10⟩, ⟨"b".toList, 11, 59/5⟩,
        ⟨"c".toList, 12, 64/5⟩, ⟨"d".toList, 13, 14⟩] := by
  have hgap := alignWalk_gapOk0 ws os hws hw
  have heq : alignWhisperToOriginal ws os =
      fillAll (ws.getLastD default).endT 0 (alignWalk ws os 0 0) := by
    by_cases hos : os = []
    · subst hos
      unfold alignWhisperToOriginal
      rw [if_pos (show ws.length = 0 ∨ ([] : List (List Char)).length = 0
          from Or.inr rfl),
        alignWalk_eq, if_neg (by simp), fillAll_nil]
      rfl
    · have hz : ¬ (ws.length = 0 ∨ os.length = 0) := by
        intro h
        rcases h with h | h
        · exact hw (List.length_eq_zero.mp h)
        · exact hos (List.length_eq_zero.mp h)
      unfold alignWhisperToOriginal
      rw [if_neg hz]
      exact interpolate_eq_fillAll _ _ hgap
  refine ⟨heq, ?_, ?_⟩
  · intro t ht
    rw [heq] at ht
    have hr := fillAll_real (ws.getLastD default).endT
      (alignWalk ws os 0 0).length (alignWalk ws os 0 0) 0 le_rfl hgap
      le_rfl t ht
    simp only [realT] at hr
    refine ⟨fun hc => ?_, fun hc => ?_⟩
    · rw [hc] at hr
      linarith [hr.1]
    · rw [hc] at hr
      linarith [hr.1, hr.2]
  · norm_num [interpolate, interpGo, interpOne, backScan, backScanGo,
      fwdScan, fwdScanGo, interpFill, List.range_succ]

theorem claim_C3_interpolation_runs_witness :
    WsOk [⟨"мир".toList, 1, 2⟩] ∧
    ∀ t ∈ alignWhisperToOriginal [⟨"мир".toList, 1, 2⟩] ["мир".toList],
      t.start ≠ -1 ∧ t.endT ≠ -1 := by
  have hws : WsOk [⟨"мир".toList, 1, 2⟩] :=
    ⟨by decide, fun k hk => by simp at hk⟩
  exact ⟨hws, (claim_C3_interpolation_runs _ ["мир".toList] hws
    (List.cons_ne_nil _ _)).2.1⟩

/-- Counterexample to C4 as stated: the whisper list `[{«мир», −5, −4}]`
satisfies the claim's hypotheses (each word has `start ≤ end`, and the words
are chronologically ordered), but against the original words `["абв","мир"]`
the unmatched first token is interpolated to `start = −5/2`,
`end = (−5/2)·1.8 = −9/2 < start`: a negative gap makes `step` negative and
the 0.8-fraction formula runs backwards. -/
theorem claim_C4_start_le_end_counterexample :
    (∀ w ∈ ([⟨"мир".toList, -5, -4⟩] : List WWord), w.start ≤ w.endT) ∧
    (∀ k, k + 1 < ([⟨"мир".toList, -5, -4⟩] : List WWord).length →
      (([⟨"мир".toList, -5, -4⟩] : List WWord).getD k default).endT ≤
        (([⟨"мир".toList, -5, -4⟩] : List WWord).getD (k + 1) default).start) ∧
    ¬ (∀ t ∈ alignWhisperToOriginal [⟨"мир".toList, -5, -4⟩]
          ["абв".toList, "мир".toList], t.start ≤ t.endT) := by
  refine ⟨by decide, ?_, ?_⟩
  · intro k hk
    simp only [List.length_cons, List.length_nil] at hk
    omega
  · intro hall
    have hw : alignWalk [⟨"мир".toList, -5, -4⟩]
        ["абв".toList, "мир".toList] 0 0 =
        [⟨"абв".toList, -1, -1⟩, ⟨" мир".toList, -5, -4⟩] := by decide
    have hfull : alignWhisperToOriginal [⟨"мир".toList, -5, -4⟩]
        ["абв".toList, "мир".toList] =
        [⟨"абв".toList, -5/2, -9/2⟩, ⟨" мир".toList, -5, -4⟩] := by
      unfold alignWhisperToOriginal
      rw [if_neg (by decide), hw]
      norm_num [interpolate, interpGo, interpOne, backScan, backScanGo,
        fwdScan, fwdScanGo, interpFill, List.range_succ, List.getLastD]
    have hmem : (⟨"абв".toList, -5/2, -9/2⟩ : AToken) ∈
        alignWhisperToOriginal [⟨"мир".toList, -5, -4⟩]
          ["абв".toList, "мир".toList] := by
      rw [hfull]
      exact List.mem_cons_self _ _
    have h0 := hall _ hmem
    norm_num at h0

/-- C4 (amended): for whisper input whose words additionally have
*nonnegative* start times (`WsOk`: `0 ≤ start ≤ end` per word,
chronologically ordered), every token returned by `alignWhisperToOriginal`
satisfies `start ≤ end` — matched tokens copy whisper timing, interpolated
tokens get `end − start = 0.8·step` with `step ≥ 0`, and the empty-input
fallback emits `start = end = 0`.  The original claim's hypotheses (without
nonnegativity) do not suffice: see the counterexample. -/
theorem claim_C4_start_le_end (ws : List WWord) (os : List (List Char))
    (hws : WsOk ws) :
    ∀ t ∈ alignWhisperToOriginal ws os, t.start ≤ t.endT := by
  intro t ht
  unfold alignWhisperToOriginal at ht
  by_cases hz : ws.length = 0 ∨ os.length = 0
  · rw [if_pos hz] at ht
    obtain ⟨h1, h2⟩ := zeroTokGo_mem os 0 t ht
    rw [h1, h2]
  · rw [if_neg hz] at ht
    have hne : ws ≠ [] := by
      intro hc
      exact hz (Or.inl (by rw [hc]; rfl))
    have hgap := alignWalk_gapOk0 ws os hws hne
    rw [interpolate_eq_fillAll _ _ hgap] at ht
    exact (fillAll_real (ws.getLastD default).endT
      (alignWalk ws os 0 0).length (alignWalk ws os 0 0) 0 le_rfl hgap
      le_rfl t ht).2

theorem claim_C4_start_le_end_witness :
    WsOk [⟨"мир".toList, 0, 1⟩] ∧
    ∀ t ∈ alignWhisperToOriginal [⟨"мир".toList, 0, 1⟩]
        ["превет".toList, "мир".toList], t.start ≤ t.endT := by
  have hws : WsOk [⟨"мир".toList, 0, 1⟩] :=
    ⟨by decide, fun k hk => by simp at hk⟩
  exact ⟨hws, claim_C4_start_le_end _ _ hws⟩

end RusTr
